import Mathlib

set_option maxRecDepth 8000

/-!
Verification development for the ticket-clustering pipeline
(`src/ml/ticket-clustering/src/clustering.py`).

Text is modelled as `List Char`.  The external numeric/text capabilities
(TF-IDF vectorizer, KMeans, silhouette score, WordNet lemmatizer) are
opaque in the source (library calls), so they are modelled as explicit
function parameters; everything originating in the repository itself
(`preprocess_text`, `_initialize_stop_words`, `find_optimal_clusters`,
`cluster_tickets`) is transcribed step by step from the source.
-/

/-! ### Character classes (ASCII fragment of Python `re` semantics) -/

/-- Python `\s` (ASCII): the whitespace characters recognised by `str.split`,
`re.sub(r'\s+', ...)` and `str.strip`. -/
def isSpaceChar (c : Char) : Bool :=
  c = ' ' || c = '\t' || c = '\n' || c = '\r' || c = '\x0b' || c = '\x0c'

/-- Python `\w` (ASCII fragment): letters, digits and underscore, as matched by
`re.sub(r'\b\w{1,2}\b', '', text)`. -/
def isWordChar (c : Char) : Bool :=
  ('a' ≤ c && c ≤ 'z') || ('A' ≤ c && c ≤ 'Z') || ('0' ≤ c && c ≤ '9') || c = '_'

/-- The characters kept by `re.sub(r"[^a-zA-Z+]", " ", text)`. -/
def isKeptChar (c : Char) : Bool :=
  ('a' ≤ c && c ≤ 'z') || ('A' ≤ c && c ≤ 'Z') || c = '+'

/-- ASCII Latin letter. -/
def isAsciiLetter (c : Char) : Bool :=
  ('a' ≤ c && c ≤ 'z') || ('A' ≤ c && c ≤ 'Z')

/-- ASCII digit. -/
def isDigitChar (c : Char) : Bool := '0' ≤ c && c ≤ '9'

/-- Negation of `isSpaceChar`, the class a token character belongs to. -/
def nonSp (c : Char) : Bool := !isSpaceChar c

/-! ### `text.split()` (line 96 of the source) -/

/-- Python `str.split()` with no arguments: split on runs of whitespace,
returning the non-empty tokens. -/
def tokenize : List Char → List (List Char)
  | [] => []
  | [c] => if isSpaceChar c then [] else [[c]]
  | c :: d :: cs =>
    if isSpaceChar c then tokenize (d :: cs)
    else if isSpaceChar d then [c] :: tokenize (d :: cs)
    else
      match tokenize (d :: cs) with
      | [] => [[c]]
      | t :: ts => (c :: t) :: ts

/-! ### `re.sub('kindly|hi|hello', '', text)` (line 93 of the source)

A fuelled left-to-right scan.  The three alternatives are pairwise
prefix-incompatible, so at each position at most one of them can match and
Python's leftmost scan coincides with this greedy scan. -/

/-- Fuelled worker for the greeting-substring removal. -/
def removeGreetingsF : Nat → List Char → List Char
  | 0, s => s
  | _ + 1, [] => []
  | fuel + 1, c :: cs =>
    if c = 'k' && cs.take 5 = ['i', 'n', 'd', 'l', 'y'] then removeGreetingsF fuel (cs.drop 5)
    else if c = 'h' && cs.take 1 = ['i'] then removeGreetingsF fuel (cs.drop 1)
    else if c = 'h' && cs.take 4 = ['e', 'l', 'l', 'o'] then removeGreetingsF fuel (cs.drop 4)
    else c :: removeGreetingsF fuel cs

/-- `re.sub('kindly|hi|hello', '', text)`: delete every occurrence of the three
literal substrings, scanning left to right, with no word-boundary checks. -/
def removeGreetings (s : List Char) : List Char := removeGreetingsF s.length s

/-! ### `re.sub(r'\b\w{1,2}\b', '', text)` (line 110 of the source)

This regex deletes exactly the maximal `\w`-runs of length 1 or 2 (a run of
length greater than 2 admits no internal `\b`).  `rsrAux s` returns the leading
word-run of `s` together with the processed remainder. -/

/-- Structural worker: `rsrAux s = (s.takeWhile isWordChar, removeShortRuns (s.dropWhile isWordChar))`. -/
def rsrAux : List Char → List Char × List Char
  | [] => ([], [])
  | c :: cs =>
    let p := rsrAux cs
    if isWordChar c then (c :: p.1, p.2)
    else ([], c :: ((if p.1.length ≤ 2 then [] else p.1) ++ p.2))

/-- `re.sub(r'\b\w{1,2}\b', '', text)`: remove every maximal word-character run
of length at most 2, keeping all other characters. -/
def removeShortRuns (s : List Char) : List Char :=
  (if (rsrAux s).1.length ≤ 2 then [] else (rsrAux s).1) ++ (rsrAux s).2

/-! ### `re.sub(r'\s+', ' ', text)` and `.strip()` (lines 113 and 115) -/

/-- `re.sub(r'\s+', ' ', text)`: replace every maximal whitespace run by a
single space. -/
def collapseSpaces : List Char → List Char
  | [] => []
  | [c] => if isSpaceChar c then [' '] else [c]
  | c :: d :: cs =>
    if isSpaceChar c then
      if isSpaceChar d then collapseSpaces (d :: cs) else ' ' :: collapseSpaces (d :: cs)
    else c :: collapseSpaces (d :: cs)

/-- Remove trailing whitespace (the right half of `str.strip`). -/
def dropTrailingSpaces : List Char → List Char
  | [] => []
  | c :: cs =>
    let r := dropTrailingSpaces cs
    if r.isEmpty then (if isSpaceChar c then [] else [c]) else c :: r

/-- Python `str.strip()`: remove leading and trailing whitespace. -/
def trimSpaces (s : List Char) : List Char :=
  dropTrailingSpaces (s.dropWhile isSpaceChar)

/-- Python `" ".join(tokens)`. -/
def joinSp : List (List Char) → List Char
  | [] => []
  | [t] => t
  | t :: ts => t ++ ' ' :: joinSp ts

/-! ### Stop words (`_initialize_stop_words`, lines 49-74 of the source) -/

/-- The domain-specific stop words added on lines 54-66 (verbatim, including
the duplicated `"much"`). -/
def domain_stop_words : List (List Char) :=
  (["make", "sent", "still", "kindly", "please", "dear", "till", "soon",
    "since", "however", "said", "also", "know", "already", "related",
    "take", "made", "thanks", "regards", "consider", "need", "required",
    "within", "taken", "hence", "thank", "much", "would", "many", "user",
    "done", "able", "almost", "want", "regard", "regarding", "like",
    "therefore", "another", "give", "hereby", "given", "thanking",
    "taking", "srns", "came", "following", "whether", "mention", "kind",
    "along", "whereas", "enable", "shall", "herewith", "without",
    "accordingly", "cannot", "come", "provided", "instead", "towards",
    "xbrl", "making", "whose", "takes", "thankyou", "obtain", "obtained",
    "asked", "madam", "team", "needful", "much", "sir"]).map String.toList

/-- The preserved "operator" tokens subtracted on lines 70-73 of the source. -/
def operator_tokens : List (List Char) :=
  (["not", "un", "got", "and", "or", "other", "i", "dont",
    "know", "there", "many", "too", "add", "my"]).map String.toList

/-- `_initialize_stop_words` of the source: the base English stop-word list
(external NLTK data, passed in as `base`) plus the domain list, minus the
preserved operator tokens.  Sets are modelled as lists with membership. -/
def init_stop_words (base : List (List Char)) : List (List Char) :=
  (base ++ domain_stop_words).filter (fun w => !(decide (w ∈ operator_tokens)))

/-! ### The `TicketClustering` object (lines 25-47 of the source) -/

/-- State bundled by the `TicketClustering` class: file paths, the (external)
WordNet lemmatizer, the (unused) Porter stemmer, and the stop-word set. -/
structure TicketClustering where
  input_file : String
  output_file : String
  lemmatize : List Char → List Char
  stemmer : List Char → List Char
  stop_words : List (List Char)

/-! ### `preprocess_text` (lines 76-115 of the source) -/

/-- Lines 87 and 90: `str(text).lower()` then
`re.sub(r"[^a-zA-Z+]", " ", text)`. -/
def cleanChars (text : List Char) : List Char :=
  (text.map Char.toLower).map (fun c => if isKeptChar c then c else ' ')

/-- Line 109: `text.replace(".", " ").replace(",", " ")` — single-character
substring replacement is a character map. -/
def dotCommaToSpace (c : Char) : Char := if c = '.' || c = ',' then ' ' else c

/-- `preprocess_text` of the source, step by step:
lowercase; replace non-`[a-zA-Z+]` by space; delete greeting substrings;
split; drop stop words and lemmatize the rest; rejoin with spaces; replace
`.`/`,` by spaces; delete 1-2 character word runs; collapse whitespace;
strip. -/
def preprocess_text (self : TicketClustering) (text : List Char) : List Char :=
  let t2 := cleanChars text
  let t3 := removeGreetings t2
  let tokens := tokenize t3
  let toks2 := (tokens.filter (fun w => !(decide (w ∈ self.stop_words)))).map self.lemmatize
  let t4 := joinSp toks2
  let t5 := t4.map dotCommaToSpace
  let t6 := removeShortRuns t5
  let t7 := collapseSpaces t6
  trimSpaces t7

/-- The token list `preprocess_text` builds on lines 96-103: split the cleaned
text, drop stop words, lemmatize the survivors. -/
def keptTokens (self : TicketClustering) (text : List Char) : List (List Char) :=
  ((tokenize (removeGreetings (cleanChars text))).filter
    (fun w => !(decide (w ∈ self.stop_words)))).map self.lemmatize

/-! ### KMeans configuration (lines 134-140 and 175-181 of the source) -/

/-- The keyword arguments passed to `KMeans(...)`. -/
structure KMeansParams where
  n_clusters : Nat
  init : String
  max_iter : Nat
  n_init : Nat
  random_state : Nat
deriving DecidableEq

/-- The `KMeans` construction inside the selection loop (lines 134-140). -/
def selectorKMeansParams (k : Nat) : KMeansParams :=
  { n_clusters := k, init := "k-means++", max_iter := 300, n_init := 10, random_state := 42 }

/-- The `KMeans` construction for the final clustering run (lines 175-181). -/
def finalKMeansParams (k : Nat) : KMeansParams :=
  { n_clusters := k, init := "k-means++", max_iter := 300, n_init := 10, random_state := 42 }

/-! ### External library capabilities, as an explicit parameter record

The source delegates feature building, clustering and scoring to sklearn.
All of them are deterministic for a fixed input and configuration (fixed
`random_state`), so they are modelled as plain functions over an opaque
feature-matrix type `M`. -/

/-- Opaque external capabilities: TF-IDF `fit_transform` (which can fail, e.g.
sklearn's `ValueError` on an empty document list), the row count
`len(X.toarray())`, `KMeans(...).fit(X).labels_`, and `silhouette_score`. -/
structure ExternalOps (M : Type) where
  fitTransform : List (List Char) → Except String M
  nRows : M → Nat
  kmeansFit : M → KMeansParams → List Nat
  silhouette : M → List Nat → ℚ

/-! ### `np.argmax` and `find_optimal_clusters` (lines 117-146) -/

/-- Worker for `np.argmax`: `xs` is the unscanned tail, `i` the index of its
head in the full list, `b`/`v` the index and value of the current best
(strict improvement keeps the first occurrence of the maximum). -/
def argmaxAux : List ℚ → Nat → Nat → ℚ → Nat
  | [], _, b, _ => b
  | x :: xs, i, b, v => if v < x then argmaxAux xs (i + 1) i x else argmaxAux xs (i + 1) b v

/-- `np.argmax`: index of the first occurrence of the maximum (`0` on the empty
list, where NumPy instead raises — the caller checks emptiness). -/
def npArgmax : List ℚ → Nat
  | [] => 0
  | x :: xs => argmaxAux xs 1 0 x

/-- `K = range(2, max_clusters + 1)` for an effective upper bound `mc`:
the candidate cluster counts `[2, ..., mc]`. -/
def candidateKs (mc : Nat) : List Nat := List.range' 2 (mc - 1)

/-- The silhouette score the selection loop computes for candidate `k`
(lines 134-142): fit KMeans with the loop configuration, score the labels. -/
def selScore {M : Type} (ops : ExternalOps M) (X : M) (k : Nat) : ℚ :=
  ops.silhouette X (ops.kmeansFit X (selectorKMeansParams k))

/-- `find_optimal_clusters` of the source:
`max_clusters = min(max_clusters, len(X.toarray()) // 8)`;
`K = range(2, max_clusters + 1)`; score each candidate; return
`K[np.argmax(silhouette_scores)]`.  `np.argmax` raises `ValueError` on an
empty score list, modelled as `Except.error`. -/
def find_optimal_clusters {M : Type} (ops : ExternalOps M) (X : M) (max_clusters : Nat) :
    Except String Nat :=
  let mc := min max_clusters (ops.nRows X / 8)
  let K := candidateKs mc
  let silhouette_scores := K.map (fun k => selScore ops X k)
  if silhouette_scores.isEmpty then Except.error "attempt to get argmax of an empty sequence"
  else Except.ok (K.getD (npArgmax silhouette_scores) 0)

/-- The selection mechanism `K[np.argmax(list-of-scores-of-K)]` applied to an
arbitrary candidate order `K` — used to state order-(in)dependence of the
selector's choice. -/
def selectFrom (K : List Nat) (score : Nat → ℚ) : Nat :=
  K.getD (npArgmax (K.map score)) 0

/-! ### `cluster_tickets` (lines 148-193 of the source) -/

/-- An input record: the `Inquiry_id` and `Question` columns kept by line 159. -/
structure Record where
  inquiry_id : Nat
  question : List Char
deriving DecidableEq

/-- A row of the dataframe after line 161 added `Description_clean`. -/
structure CleanRow where
  inquiry_id : Nat
  question : List Char
  description_clean : List Char
deriving DecidableEq

/-- A row of the dataframe written at line 192: identifier, raw text,
normalized text, and the integer cluster label. -/
structure OutRow where
  inquiry_id : Nat
  question : List Char
  description_clean : List Char
  label : Nat
deriving DecidableEq

/-- pandas semantics of `frame['Label'] = ndarray`: a NumPy array carries no
index, so the assignment is positional and requires the lengths to agree;
otherwise pandas raises `ValueError("Length of values does not match length
of index")`. -/
def assignColumn {α : Type} (rows : List α) (vals : List Nat) : Except String (List (α × Nat)) :=
  if rows.length = vals.length then Except.ok (rows.zip vals)
  else Except.error "Length of values does not match length of index"

/-- The columns of the dataframe written by `to_csv` at line 192: the two
columns selected at line 159, plus `Description_clean` added at line 161,
plus `Label` added at line 191. -/
def written_columns : List String := ["Inquiry_id", "Question", "Description_clean", "Label"]

/-- `df.sort_values('Label')`: sort rows by the label column (tie order among
equal labels is not specified by the source; any correct sort models it). -/
def sortByLabel (rows : List OutRow) : List OutRow :=
  List.insertionSort (fun a b => a.label ≤ b.label) rows

/-- Line 161: the full frame with the added `Description_clean` column. -/
def cleanedRows (self : TicketClustering) (df : List Record) : List CleanRow :=
  df.map (fun r => ⟨r.inquiry_id, r.question, preprocess_text self r.question⟩)

/-- Line 162: `clean_data = df[df['Description_clean'] != '']`. -/
def cleanData (self : TicketClustering) (df : List Record) : List CleanRow :=
  (cleanedRows self df).filter (fun r => !r.description_clean.isEmpty)

/-- Build one written row from a labelled row pair. -/
def toOutRow (p : CleanRow × Nat) : OutRow :=
  ⟨p.1.inquiry_id, p.1.question, p.1.description_clean, p.2⟩

/-- `cluster_tickets` of the source (file I/O and console reporting are out of
scope per the design document; `_analyze_clusters` only prints):
add `Description_clean` (line 161); keep rows with non-empty normalized text
(line 162); TF-IDF (lines 167-168); choose `k` (line 172); final KMeans fit
(lines 175-182); `clean_data['Label'] = model.labels_` (line 185);
`df['Label'] = model.labels_` (line 191) — note `df` here is the full frame
including rows whose normalized text was empty; sort by label and write
(line 192). -/
def cluster_tickets {M : Type} (self : TicketClustering) (ops : ExternalOps M)
    (df : List Record) : Except String (List OutRow) := do
  let X ← ops.fitTransform ((cleanData self df).map (fun r => r.description_clean))
  let optimal_k ← find_optimal_clusters ops X 10
  let labels := ops.kmeansFit X (finalKMeansParams optimal_k)
  let _ ← assignColumn (cleanData self df) labels
  let labeled ← assignColumn (cleanedRows self df) labels
  Except.ok (sortByLabel (labeled.map toOutRow))

/-! ### Concrete instances used by the counterexamples and witnesses -/

/-- A lemmatizer placeholder that keeps a token when it is made of letters and
`+` only (as WordNet outputs are), and maps anything else to the empty token. -/
def guardLemmatize (t : List Char) : List Char :=
  if t.all (fun c => isAsciiLetter c || c = '+') then t else []

/-- A `TicketClustering` state with the identity lemmatizer and an empty base
(NLTK) stop-word list. -/
def demoSelf : TicketClustering :=
  { input_file := "data/raw/unanswered_reports.csv"
    output_file := "output/clustered_tickets.csv"
    lemmatize := id
    stemmer := id
    stop_words := init_stop_words [] }

/-- A `TicketClustering` state whose lemmatizer provably emits only letters
and `+`. -/
def demoSelfW : TicketClustering :=
  { input_file := "data/raw/unanswered_reports.csv"
    output_file := "output/clustered_tickets.csv"
    lemmatize := guardLemmatize
    stemmer := id
    stop_words := init_stop_words [] }

/-- Two states that agree on the stop words and the lemmatizer but differ in
every other field (file paths, stemmer). -/
def demoSelfA : TicketClustering :=
  { input_file := "a.csv", output_file := "b.csv", lemmatize := id, stemmer := id
    stop_words := init_stop_words [] }

/-- See `demoSelfA`. -/
def demoSelfB : TicketClustering :=
  { input_file := "c.csv", output_file := "d.csv", lemmatize := id
    stemmer := fun t => t ++ t
    stop_words := init_stop_words [] }

/-- A `TicketClustering` state whose lemmatizer behaves like WordNet on the
token `"users"`: it reduces it to its dictionary base form `"user"` (which is
in the domain stop list) and fixes everything else. -/
def demoSelfLem : TicketClustering :=
  { input_file := "data/raw/unanswered_reports.csv"
    output_file := "output/clustered_tickets.csv"
    lemmatize := fun t => if t = String.toList "users" then String.toList "user" else t
    stemmer := id
    stop_words := init_stop_words [] }

/-- Concrete external capabilities over `M := Nat` (the matrix is its row
count): TF-IDF fails on an empty document list exactly as sklearn does,
KMeans assigns every row the label 0, the silhouette score is constant. -/
def demoOps : ExternalOps Nat :=
  { fitTransform := fun docs =>
      if docs.isEmpty then
        Except.error "empty vocabulary; perhaps the documents only contain stop words"
      else Except.ok docs.length
    nRows := fun X => X
    kmeansFit := fun X _ => List.replicate X 0
    silhouette := fun _ _ => 0 }

/-- External capabilities whose silhouette scores are injective in `k`. -/
def demoOpsInj : ExternalOps Nat :=
  { fitTransform := fun docs =>
      if docs.isEmpty then
        Except.error "empty vocabulary; perhaps the documents only contain stop words"
      else Except.ok docs.length
    nRows := fun X => X
    kmeansFit := fun X cfg => List.replicate X cfg.n_clusters
    silhouette := fun _ labels => (labels.headD 0 : ℚ) }

/-- A question whose normalized text is non-empty. -/
def demoQuestion : List Char := String.toList "Password reset!"

/-- Sixteen records with non-empty normalized text. -/
def demoDf16 : List Record :=
  (List.range 16).map (fun i => { inquiry_id := i, question := demoQuestion })

/-- The same sixteen records plus one whose text normalizes to the empty
string (`"My"` is an operator token of length 2, deleted by the short-run
filter). -/
def demoDf17 : List Record :=
  demoDf16 ++ [{ inquiry_id := 16, question := String.toList "My" }]

/-- Three records that all normalize to the empty string: a stop word, a
short operator, and a greeting. -/
def demoDfAllStop : List Record :=
  [{ inquiry_id := 0, question := String.toList "Please" },
   { inquiry_id := 1, question := String.toList "My!" },
   { inquiry_id := 2, question := String.toList "kindly" }]

/-! ## Unfolding equations for the scanners -/

theorem tokenize_nil : tokenize [] = [] := rfl

theorem tokenize_cons_space {c : Char} (cs : List Char) (h : isSpaceChar c = true) :
    tokenize (c :: cs) = tokenize cs := by
  cases cs with
  | nil => simp [tokenize, h]
  | cons d cs => simp [tokenize, h]

theorem tokenize_cons_nonspace :
    ∀ (cs : List Char) {c : Char}, isSpaceChar c = false →
      tokenize (c :: cs) = (c :: cs.takeWhile nonSp) :: tokenize (cs.dropWhile nonSp) := by
  intro cs
  induction cs with
  | nil => intro c h; simp [tokenize, h]
  | cons d cs ih =>
    intro c h
    by_cases hd : isSpaceChar d = true
    · have hnd : nonSp d = false := by simp [nonSp, hd]
      simp [tokenize, h, hd, hnd]
    · have hd' : isSpaceChar d = false := by simpa using hd
      have hnd : nonSp d = true := by simp [nonSp, hd']
      have ihd := ih (c := d) hd'
      simp only [tokenize, h, Bool.false_eq_true, if_false, hd']
      rw [ihd]
      simp [List.takeWhile_cons, List.dropWhile_cons, hnd]

theorem removeGreetingsF_congr :
    ∀ (f g : Nat) (s : List Char), s.length ≤ f → s.length ≤ g →
      removeGreetingsF f s = removeGreetingsF g s := by
  intro f
  induction f with
  | zero =>
    intro g s hf _
    have : s = [] := List.length_eq_zero.mp (Nat.le_zero.mp hf)
    subst this
    cases g <;> rfl
  | succ f ih =>
    intro g s hf hg
    cases s with
    | nil => cases g <;> rfl
    | cons c cs =>
      cases g with
      | zero => exact absurd hg (by simp)
      | succ g =>
        have hcs : cs.length ≤ f := Nat.le_of_succ_le_succ (by simpa using hf)
        have hcs' : cs.length ≤ g := Nat.le_of_succ_le_succ (by simpa using hg)
        have hdrop : ∀ k : Nat, (cs.drop k).length ≤ f := fun k =>
          le_trans (by simpa using List.length_drop_le k cs) hcs
        have hdrop' : ∀ k : Nat, (cs.drop k).length ≤ g := fun k =>
          le_trans (by simpa using List.length_drop_le k cs) hcs'
        simp only [removeGreetingsF]
        split
        · exact ih g (cs.drop 5) (hdrop 5) (hdrop' 5)
        · split
          · exact ih g (cs.drop 1) (hdrop 1) (hdrop' 1)
          · split
            · exact ih g (cs.drop 4) (hdrop 4) (hdrop' 4)
            · exact congrArg (c :: ·) (ih g cs hcs hcs')

theorem removeGreetings_nil : removeGreetings [] = [] := rfl

theorem removeGreetings_cons (c : Char) (cs : List Char) :
    removeGreetings (c :: cs) =
      if c = 'k' && cs.take 5 = ['i', 'n', 'd', 'l', 'y'] then removeGreetings (cs.drop 5)
      else if c = 'h' && cs.take 1 = ['i'] then removeGreetings (cs.drop 1)
      else if c = 'h' && cs.take 4 = ['e', 'l', 'l', 'o'] then removeGreetings (cs.drop 4)
      else c :: removeGreetings cs := by
  have hlen : ∀ k : Nat, (cs.drop k).length ≤ cs.length := fun k => by
    simpa using List.length_drop_le k cs
  show removeGreetingsF (c :: cs).length (c :: cs) = _
  simp only [List.length_cons, removeGreetingsF]
  split
  · exact removeGreetingsF_congr _ _ _ (hlen 5) le_rfl
  · split
    · exact removeGreetingsF_congr _ _ _ (hlen 1) le_rfl
    · split
      · exact removeGreetingsF_congr _ _ _ (hlen 4) le_rfl
      · rfl

theorem rsrAux_spec (s : List Char) :
    rsrAux s = (s.takeWhile isWordChar, removeShortRuns (s.dropWhile isWordChar)) := by
  induction s with
  | nil => rfl
  | cons c cs ih =>
    by_cases hc : isWordChar c = true
    · simp [rsrAux, hc, ih, List.takeWhile_cons, List.dropWhile_cons]
    · have hc' : isWordChar c = false := by simpa using hc
      simp only [rsrAux, hc', Bool.false_eq_true, if_false, List.takeWhile_cons, List.dropWhile_cons]
      simp only [removeShortRuns, rsrAux, hc', Bool.false_eq_true, if_false]
      simp

theorem removeShortRuns_nil : removeShortRuns [] = [] := rfl

theorem removeShortRuns_cons_word {c : Char} (cs : List Char) (h : isWordChar c = true) :
    removeShortRuns (c :: cs) =
      (if (c :: cs.takeWhile isWordChar).length ≤ 2 then [] else c :: cs.takeWhile isWordChar)
        ++ removeShortRuns (cs.dropWhile isWordChar) := by
  simp only [removeShortRuns, rsrAux, rsrAux_spec cs, h, if_true]

theorem removeShortRuns_cons_nonword {c : Char} (cs : List Char) (h : isWordChar c = false) :
    removeShortRuns (c :: cs) = c :: removeShortRuns cs := by
  simp only [removeShortRuns, rsrAux, rsrAux_spec cs, h, Bool.false_eq_true, if_false]
  simp [removeShortRuns, rsrAux_spec cs]

theorem collapseSpaces_nil : collapseSpaces [] = [] := rfl

theorem collapseSpaces_cons_nonspace {c : Char} (cs : List Char) (h : isSpaceChar c = false) :
    collapseSpaces (c :: cs) = c :: collapseSpaces cs := by
  cases cs with
  | nil => simp [collapseSpaces, h]
  | cons d cs => simp [collapseSpaces, h]

theorem collapseSpaces_cons_space :
    ∀ (cs : List Char) {c : Char}, isSpaceChar c = true →
      collapseSpaces (c :: cs) = ' ' :: collapseSpaces (cs.dropWhile isSpaceChar) := by
  intro cs
  induction cs with
  | nil => intro c h; simp [collapseSpaces, h]
  | cons d cs ih =>
    intro c h
    by_cases hd : isSpaceChar d = true
    · simpa [collapseSpaces, h, hd, List.dropWhile_cons] using ih (c := d) hd
    · have hd' : isSpaceChar d = false := by simpa using hd
      simp [collapseSpaces, h, hd', List.dropWhile_cons]

/-! ## Membership lemmas: the scanners only delete or substitute characters -/

theorem mem_of_mem_removeGreetingsF :
    ∀ (f : Nat) (s : List Char) (c : Char), c ∈ removeGreetingsF f s → c ∈ s := by
  intro f
  induction f with
  | zero => intro s c h; simpa [removeGreetingsF] using h
  | succ f ih =>
    intro s c h
    cases s with
    | nil => simpa [removeGreetingsF] using h
    | cons d cs =>
      simp only [removeGreetingsF] at h
      split at h
      · exact List.mem_cons_of_mem _ (List.mem_of_mem_drop (ih _ _ h))
      · split at h
        · exact List.mem_cons_of_mem _ (List.mem_of_mem_drop (ih _ _ h))
        · split at h
          · exact List.mem_cons_of_mem _ (List.mem_of_mem_drop (ih _ _ h))
          · rcases List.mem_cons.mp h with h | h
            · exact List.mem_cons.mpr (Or.inl h)
            · exact List.mem_cons_of_mem _ (ih _ _ h)

theorem mem_of_mem_removeGreetings {s : List Char} {c : Char}
    (h : c ∈ removeGreetings s) : c ∈ s :=
  mem_of_mem_removeGreetingsF _ _ _ h

theorem mem_of_mem_rsrAux :
    ∀ (s : List Char) (c : Char),
      (c ∈ (rsrAux s).1 → c ∈ s) ∧ (c ∈ (rsrAux s).2 → c ∈ s) := by
  intro s
  induction s with
  | nil => intro c; simp [rsrAux]
  | cons d cs ih =>
    intro c
    by_cases hd : isWordChar d = true
    · constructor
      · intro h
        simp only [rsrAux, hd, if_true] at h
        rcases List.mem_cons.mp h with h | h
        · exact List.mem_cons.mpr (Or.inl h)
        · exact List.mem_cons_of_mem _ ((ih c).1 h)
      · intro h
        simp only [rsrAux, hd, if_true] at h
        exact List.mem_cons_of_mem _ ((ih c).2 h)
    · have hd' : isWordChar d = false := by simpa using hd
      constructor
      · intro h
        simp only [rsrAux, hd', Bool.false_eq_true, if_false] at h
        simp at h
      · intro h
        simp only [rsrAux, hd', Bool.false_eq_true, if_false] at h
        rcases List.mem_cons.mp h with h | h
        · exact List.mem_cons.mpr (Or.inl h)
        · rcases List.mem_append.mp h with h | h
          · split at h
            · simp at h
            · exact List.mem_cons_of_mem _ ((ih c).1 h)
          · exact List.mem_cons_of_mem _ ((ih c).2 h)

theorem mem_of_mem_removeShortRuns {s : List Char} {c : Char}
    (h : c ∈ removeShortRuns s) : c ∈ s := by
  unfold removeShortRuns at h
  rcases List.mem_append.mp h with h | h
  · split at h
    · simp at h
    · exact (mem_of_mem_rsrAux s c).1 h
  · exact (mem_of_mem_rsrAux s c).2 h

theorem mem_of_mem_collapseSpaces :
    ∀ (s : List Char) (c : Char), c ∈ collapseSpaces s → c ∈ s ∨ c = ' ' := by
  intro s
  induction s using collapseSpaces.induct with
  | case1 => intro c h; simp [collapseSpaces] at h
  | case2 d hd =>
    intro c h
    simp [collapseSpaces, hd] at h
    exact Or.inr h
  | case3 d hd =>
    intro c h
    simp [collapseSpaces, if_neg hd] at h
    exact Or.inl (by simp [h])
  | case4 d e cs hd he ih =>
    intro c h
    rw [collapseSpaces, if_pos hd, if_pos he] at h
    rcases ih c h with h | h
    · exact Or.inl (List.mem_cons_of_mem _ h)
    · exact Or.inr h
  | case5 d e cs hd he ih =>
    intro c h
    rw [collapseSpaces, if_pos hd, if_neg he] at h
    rcases List.mem_cons.mp h with h | h
    · exact Or.inr h
    · rcases ih c h with h | h
      · exact Or.inl (List.mem_cons_of_mem _ h)
      · exact Or.inr h
  | case6 d e cs hd ih =>
    intro c h
    rw [collapseSpaces, if_neg hd] at h
    rcases List.mem_cons.mp h with h | h
    · exact Or.inl (List.mem_cons.mpr (Or.inl h))
    · rcases ih c h with h | h
      · exact Or.inl (List.mem_cons_of_mem _ h)
      · exact Or.inr h

theorem mem_of_mem_dropTrailingSpaces :
    ∀ (s : List Char) (c : Char), c ∈ dropTrailingSpaces s → c ∈ s := by
  intro s
  induction s with
  | nil => intro c h; simpa [dropTrailingSpaces] using h
  | cons d cs ih =>
    intro c h
    simp only [dropTrailingSpaces] at h
    split at h
    · split at h
      · simp at h
      · rcases List.mem_cons.mp h with h | h
        · exact List.mem_cons.mpr (Or.inl h)
        · simp at h
    · rcases List.mem_cons.mp h with h | h
      · exact List.mem_cons.mpr (Or.inl h)
      · exact List.mem_cons_of_mem _ (ih c h)

theorem mem_of_mem_trimSpaces {s : List Char} {c : Char}
    (h : c ∈ trimSpaces s) : c ∈ s :=
  ((List.dropWhile_sublist isSpaceChar).mem (mem_of_mem_dropTrailingSpaces _ _ h))

/-! ## Shape of the token list produced by `tokenize` -/

theorem tokenize_tokens_spec :
    ∀ (s : List Char), ∀ t ∈ tokenize s,
      t ≠ [] ∧ ∀ c ∈ t, isSpaceChar c = false ∧ c ∈ s := by
  intro s
  induction s using tokenize.induct with
  | case1 => simp [tokenize]
  | case2 d hd => simp [tokenize, hd]
  | case3 d hd =>
    have hd' : isSpaceChar d = false := by simpa using hd
    intro t ht
    simp [tokenize, hd'] at ht
    subst ht
    refine ⟨by simp, ?_⟩
    intro c hc
    simp at hc
    subst hc
    exact ⟨hd', by simp⟩
  | case4 d e cs hd ih =>
    intro t ht
    rw [tokenize_cons_space _ hd] at ht
    obtain ⟨h1, h2⟩ := ih t ht
    exact ⟨h1, fun c hc => ⟨(h2 c hc).1, List.mem_cons_of_mem _ (h2 c hc).2⟩⟩
  | case5 d e cs hd he ih =>
    have hd' : isSpaceChar d = false := by simpa using hd
    intro t ht
    have : tokenize (d :: e :: cs) = [d] :: tokenize (e :: cs) := by
      simp [tokenize, hd', he]
    rw [this] at ht
    rcases List.mem_cons.mp ht with ht | ht
    · subst ht
      refine ⟨by simp, ?_⟩
      intro c hc
      simp at hc
      subst hc
      exact ⟨hd', by simp⟩
    · obtain ⟨h1, h2⟩ := ih t ht
      exact ⟨h1, fun c hc => ⟨(h2 c hc).1, List.mem_cons_of_mem _ (h2 c hc).2⟩⟩
  | case6 d e cs hd he hnil ih =>
    have he' : isSpaceChar e = false := by simpa using he
    rw [tokenize_cons_nonspace cs he'] at hnil
    exact absurd hnil (by simp)
  | case7 d e cs hd he t ts heq ih =>
    have hd' : isSpaceChar d = false := by simpa using hd
    have he' : isSpaceChar e = false := by simpa using he
    intro u hu
    have : tokenize (d :: e :: cs) = (d :: t) :: ts := by
      simp [tokenize, hd', he', heq]
    rw [this] at hu
    rcases List.mem_cons.mp hu with hu | hu
    · subst hu
      refine ⟨by simp, ?_⟩
      intro c hc
      rcases List.mem_cons.mp hc with hc | hc
      · subst hc; exact ⟨hd', by simp⟩
      · have := (ih t (by rw [heq]; exact List.mem_cons_self _ _)).2 c hc
        exact ⟨this.1, List.mem_cons_of_mem _ this.2⟩
    · have hts : u ∈ tokenize (e :: cs) := by rw [heq]; exact List.mem_cons_of_mem _ hu
      obtain ⟨h1, h2⟩ := ih u hts
      exact ⟨h1, fun c hc => ⟨(h2 c hc).1, List.mem_cons_of_mem _ (h2 c hc).2⟩⟩

/-! ## takeWhile / dropWhile helpers -/

theorem takeWhile_eq_self_of_all {α : Type} (p : α → Bool) :
    ∀ (l : List α), (∀ x ∈ l, p x = true) → l.takeWhile p = l := by
  intro l
  induction l with
  | nil => intro _; rfl
  | cons a l ih =>
    intro h
    rw [List.takeWhile_cons, if_pos (h a (List.mem_cons_self _ _)),
      ih (fun x hx => h x (List.mem_cons_of_mem _ hx))]

theorem dropWhile_eq_nil_of_all {α : Type} (p : α → Bool) :
    ∀ (l : List α), (∀ x ∈ l, p x = true) → l.dropWhile p = [] := by
  intro l
  induction l with
  | nil => intro _; rfl
  | cons a l ih =>
    intro h
    rw [List.dropWhile_cons, if_pos (h a (List.mem_cons_self _ _))]
    exact ih (fun x hx => h x (List.mem_cons_of_mem _ hx))

theorem takeWhile_append_blocker {α : Type} (p : α → Bool) {m : α} (hm : p m = false) :
    ∀ (xs ys : List α), (xs ++ m :: ys).takeWhile p = xs.takeWhile p := by
  intro xs ys
  induction xs with
  | nil => simp [List.takeWhile_cons, hm]
  | cons a xs ih =>
    by_cases ha : p a = true
    · simp [List.takeWhile_cons, ha, ih]
    · have ha' : p a = false := by simpa using ha
      simp [List.takeWhile_cons, ha']

theorem dropWhile_append_blocker {α : Type} (p : α → Bool) {m : α} (hm : p m = false) :
    ∀ (xs ys : List α), (xs ++ m :: ys).dropWhile p = xs.dropWhile p ++ m :: ys := by
  intro xs ys
  induction xs with
  | nil => simp [List.dropWhile_cons, hm]
  | cons a xs ih =>
    by_cases ha : p a = true
    · simp [List.dropWhile_cons, ha, ih]
    · have ha' : p a = false := by simpa using ha
      simp [List.dropWhile_cons, ha']

/-! ## Tokenization of space-free strings and of appends at a space -/

theorem tokenize_no_space {x : List Char} (hsf : ∀ c ∈ x, isSpaceChar c = false) :
    tokenize x = if x.isEmpty then [] else [x] := by
  cases x with
  | nil => rfl
  | cons c xs =>
    have hc : isSpaceChar c = false := hsf c (List.mem_cons_self _ _)
    have hxs : ∀ d ∈ xs, nonSp d = true := fun d hd => by
      simp [nonSp, hsf d (List.mem_cons_of_mem _ hd)]
    rw [tokenize_cons_nonspace xs hc, takeWhile_eq_self_of_all nonSp xs hxs,
      dropWhile_eq_nil_of_all nonSp xs hxs]
    simp [tokenize]

theorem tokenize_append_space {x : List Char} (y : List Char) (hx : x ≠ [])
    (hsf : ∀ c ∈ x, isSpaceChar c = false) :
    tokenize (x ++ ' ' :: y) = x :: tokenize y := by
  cases x with
  | nil => exact absurd rfl hx
  | cons c xs =>
    have hc : isSpaceChar c = false := hsf c (List.mem_cons_self _ _)
    have hxs : ∀ d ∈ xs, nonSp d = true := fun d hd => by
      simp [nonSp, hsf d (List.mem_cons_of_mem _ hd)]
    have hns : nonSp ' ' = false := by simp [nonSp, isSpaceChar]
    rw [List.cons_append, tokenize_cons_nonspace _ hc,
      takeWhile_append_blocker nonSp hns, dropWhile_append_blocker nonSp hns,
      takeWhile_eq_self_of_all nonSp xs hxs, dropWhile_eq_nil_of_all nonSp xs hxs,
      List.nil_append, tokenize_cons_space y (by simp [isSpaceChar])]

theorem tokenize_dropWhile_space :
    ∀ (s : List Char), tokenize (s.dropWhile isSpaceChar) = tokenize s := by
  intro s
  induction s with
  | nil => rfl
  | cons c cs ih =>
    by_cases hc : isSpaceChar c = true
    · rw [List.dropWhile_cons, if_pos hc, ih, tokenize_cons_space cs hc]
    · have hc' : isSpaceChar c = false := by simpa using hc
      rw [List.dropWhile_cons, if_neg (by simp [hc'])]

/-! ## Tokenizing a join -/

theorem mem_joinSp :
    ∀ (toks : List (List Char)) (c : Char),
      c ∈ joinSp toks → (∃ t ∈ toks, c ∈ t) ∨ c = ' ' := by
  intro toks
  induction toks with
  | nil => intro c h; simp [joinSp] at h
  | cons t ts ih =>
    intro c h
    cases ts with
    | nil => exact Or.inl ⟨t, List.mem_cons_self _ _, by simpa [joinSp] using h⟩
    | cons u ts' =>
      rw [show joinSp (t :: u :: ts') = t ++ ' ' :: joinSp (u :: ts') from rfl] at h
      rcases List.mem_append.mp h with h | h
      · exact Or.inl ⟨t, List.mem_cons_self _ _, h⟩
      · rcases List.mem_cons.mp h with h | h
        · exact Or.inr h
        · rcases ih c h with ⟨v, hv, hc⟩ | h
          · exact Or.inl ⟨v, List.mem_cons_of_mem _ hv, hc⟩
          · exact Or.inr h

theorem tokenize_joinSp :
    ∀ (toks : List (List Char)),
      (∀ t ∈ toks, ∀ c ∈ t, isSpaceChar c = false) →
      tokenize (joinSp toks) = toks.filter (fun t => !t.isEmpty) := by
  intro toks
  induction toks with
  | nil => intro _; rfl
  | cons t ts ih =>
    intro h
    cases ts with
    | nil =>
      show tokenize t = _
      rw [tokenize_no_space (h t (List.mem_cons_self _ _))]
      cases t <;> simp
    | cons u ts' =>
      rw [show joinSp (t :: u :: ts') = t ++ ' ' :: joinSp (u :: ts') from rfl]
      by_cases ht : t = []
      · subst ht
        rw [List.nil_append, tokenize_cons_space _ (by simp [isSpaceChar]),
          ih (fun v hv => h v (List.mem_cons_of_mem _ hv))]
        simp
      · rw [tokenize_append_space _ ht (h t (List.mem_cons_self _ _)),
          ih (fun v hv => h v (List.mem_cons_of_mem _ hv))]
        simp [List.filter_cons, List.isEmpty_iff, ht]

theorem takeWhile_append_all {α : Type} (p : α → Bool) :
    ∀ (xs z : List α), (∀ x ∈ xs, p x = true) →
      (xs ++ z).takeWhile p = xs ++ z.takeWhile p := by
  intro xs z
  induction xs with
  | nil => intro _; rfl
  | cons a xs ih =>
    intro h
    rw [List.cons_append, List.takeWhile_cons, if_pos (h a (List.mem_cons_self _ _)),
      ih (fun x hx => h x (List.mem_cons_of_mem _ hx)), List.cons_append]

theorem dropWhile_append_all {α : Type} (p : α → Bool) :
    ∀ (xs z : List α), (∀ x ∈ xs, p x = true) →
      (xs ++ z).dropWhile p = z.dropWhile p := by
  intro xs z
  induction xs with
  | nil => intro _; rfl
  | cons a xs ih =>
    intro h
    rw [List.cons_append, List.dropWhile_cons, if_pos (h a (List.mem_cons_self _ _))]
    exact ih (fun x hx => h x (List.mem_cons_of_mem _ hx))

theorem map_eq_self_of_fix {α : Type} (f : α → α) :
    ∀ (l : List α), (∀ x ∈ l, f x = x) → l.map f = l := by
  intro l
  induction l with
  | nil => intro _; rfl
  | cons a l ih =>
    intro h
    rw [List.map_cons, h a (List.mem_cons_self _ _), ih (fun x hx => h x (List.mem_cons_of_mem _ hx))]

/-! ## `removeShortRuns` distributes over a space -/

theorem removeShortRuns_append_space_aux :
    ∀ (n : Nat) (a : List Char), a.length ≤ n → ∀ b,
      removeShortRuns (a ++ ' ' :: b) = removeShortRuns a ++ ' ' :: removeShortRuns b := by
  intro n
  induction n with
  | zero =>
    intro a ha b
    have : a = [] := List.length_eq_zero.mp (Nat.le_zero.mp ha)
    subst this
    rw [List.nil_append, removeShortRuns_cons_nonword b (by decide), removeShortRuns_nil,
      List.nil_append]
  | succ n ih =>
    intro a ha b
    cases a with
    | nil =>
      rw [List.nil_append, removeShortRuns_cons_nonword b (by decide), removeShortRuns_nil,
        List.nil_append]
    | cons c a' =>
      have ha' : a'.length ≤ n := Nat.le_of_succ_le_succ (by simpa using ha)
      by_cases hc : isWordChar c = true
      · have hw : isWordChar ' ' = false := by decide
        rw [List.cons_append, removeShortRuns_cons_word (a' ++ ' ' :: b) hc,
          removeShortRuns_cons_word a' hc,
          takeWhile_append_blocker isWordChar hw, dropWhile_append_blocker isWordChar hw,
          ih (a'.dropWhile isWordChar) (le_trans (List.dropWhile_sublist _).length_le ha') b,
          List.append_assoc]
      · have hc' : isWordChar c = false := by simpa using hc
        rw [List.cons_append, removeShortRuns_cons_nonword _ hc',
          removeShortRuns_cons_nonword _ hc', ih a' ha' b, List.cons_append]

theorem removeShortRuns_append_space (a b : List Char) :
    removeShortRuns (a ++ ' ' :: b) = removeShortRuns a ++ ' ' :: removeShortRuns b :=
  removeShortRuns_append_space_aux a.length a le_rfl b

/-! ## Facts about the short-run filter on single runs -/

theorem removeShortRuns_all_word {t : List Char} (h : ∀ c ∈ t, isWordChar c = true) :
    removeShortRuns t = if t.length ≤ 2 then [] else t := by
  cases t with
  | nil => simp [removeShortRuns_nil]
  | cons c ts =>
    have hts : ∀ d ∈ ts, isWordChar d = true := fun d hd => h d (List.mem_cons_of_mem _ hd)
    rw [removeShortRuns_cons_word ts (h c (List.mem_cons_self _ _)),
      takeWhile_eq_self_of_all isWordChar ts hts,
      dropWhile_eq_nil_of_all isWordChar ts hts, removeShortRuns_nil, List.append_nil]

theorem mem_removeShortRuns_of_nonword_aux :
    ∀ (n : Nat) (s : List Char) (c : Char), s.length ≤ n → isWordChar c = false →
      c ∈ s → c ∈ removeShortRuns s := by
  intro n
  induction n with
  | zero =>
    intro s c hs _ hc
    have : s = [] := List.length_eq_zero.mp (Nat.le_zero.mp hs)
    subst this
    simp at hc
  | succ n ih =>
    intro s c hs hw hc
    cases s with
    | nil => simp at hc
    | cons d cs =>
      have hcs : cs.length ≤ n := Nat.le_of_succ_le_succ (by simpa using hs)
      by_cases hd : isWordChar d = true
      · have hne : c ≠ d := fun h => by rw [h, hd] at hw; exact absurd hw (by simp)
        have hccs : c ∈ cs := by
          rcases List.mem_cons.mp hc with h | h
          · exact absurd h hne
          · exact h
        have hnotin : c ∉ cs.takeWhile isWordChar := fun h => by
          rw [List.mem_takeWhile_imp h] at hw; exact absurd hw (by simp)
        have hdropmem : c ∈ cs.dropWhile isWordChar := by
          have := List.takeWhile_append_dropWhile isWordChar cs
          rcases List.mem_append.mp (this ▸ hccs) with h | h
          · exact absurd h hnotin
          · exact h
        rw [removeShortRuns_cons_word cs hd]
        exact List.mem_append.mpr (Or.inr
          (ih (cs.dropWhile isWordChar) c
            (le_trans (List.dropWhile_sublist _).length_le hcs) hw hdropmem))
      · have hd' : isWordChar d = false := by simpa using hd
        rw [removeShortRuns_cons_nonword cs hd']
        rcases List.mem_cons.mp hc with h | h
        · exact List.mem_cons.mpr (Or.inl h)
        · exact List.mem_cons_of_mem _ (ih cs c hcs hw h)

theorem mem_removeShortRuns_of_nonword {s : List Char} {c : Char}
    (hw : isWordChar c = false) (hc : c ∈ s) : c ∈ removeShortRuns s :=
  mem_removeShortRuns_of_nonword_aux s.length s c le_rfl hw hc

theorem three_le_length_removeShortRuns_aux :
    ∀ (n : Nat) (s : List Char), s.length ≤ n →
      (∃ c ∈ removeShortRuns s, isWordChar c = true) →
      3 ≤ (removeShortRuns s).length := by
  intro n
  induction n with
  | zero =>
    intro s hs hex
    have : s = [] := List.length_eq_zero.mp (Nat.le_zero.mp hs)
    subst this
    simp [removeShortRuns_nil] at hex
  | succ n ih =>
    intro s hs hex
    cases s with
    | nil => simp [removeShortRuns_nil] at hex
    | cons d cs =>
      have hcs : cs.length ≤ n := Nat.le_of_succ_le_succ (by simpa using hs)
      by_cases hd : isWordChar d = true
      · rw [removeShortRuns_cons_word cs hd] at hex ⊢
        obtain ⟨c, hc, hcw⟩ := hex
        rcases List.mem_append.mp hc with h | h
        · -- the kept run is non-empty, hence its length is at least 3
          by_cases hle : (d :: cs.takeWhile isWordChar).length ≤ 2
          · rw [if_pos hle] at h; simp at h
          · rw [List.length_append]
            have : 3 ≤ (d :: cs.takeWhile isWordChar).length := by omega
            rw [if_neg hle]
            omega
        · have h3 := ih (cs.dropWhile isWordChar)
            (le_trans (List.dropWhile_sublist _).length_le hcs) ⟨c, h, hcw⟩
          rw [List.length_append]
          omega
      · have hd' : isWordChar d = false := by simpa using hd
        rw [removeShortRuns_cons_nonword cs hd'] at hex ⊢
        obtain ⟨c, hc, hcw⟩ := hex
        rcases List.mem_cons.mp hc with h | h
        · rw [h, hd'] at hcw; exact absurd hcw (by simp)
        · have := ih cs hcs ⟨c, h, hcw⟩
          simp only [List.length_cons]
          omega

theorem three_le_length_removeShortRuns {s : List Char}
    (hex : ∃ c ∈ removeShortRuns s, isWordChar c = true) :
    3 ≤ (removeShortRuns s).length :=
  three_le_length_removeShortRuns_aux s.length s le_rfl hex

/-! ## Tokenization commutes with per-token transformers

If `f` fixes the empty string, distributes over a space, and only keeps
characters of its input, then tokenizing `f s` yields the non-empty images
under `f` of the tokens of `s` (for strings whose only whitespace is `' '`). -/

theorem tokenize_comm_aux (f : List Char → List Char)
    (hnil : f [] = [])
    (hdist : ∀ a b, f (a ++ ' ' :: b) = f a ++ ' ' :: f b)
    (hsub : ∀ s c, c ∈ f s → c ∈ s) :
    ∀ (n : Nat) (s : List Char), s.length ≤ n →
      (∀ c ∈ s, isSpaceChar c = true → c = ' ') →
      tokenize (f s) = ((tokenize s).map f).filter (fun t => !t.isEmpty) := by
  intro n
  induction n with
  | zero =>
    intro s hs _
    have : s = [] := List.length_eq_zero.mp (Nat.le_zero.mp hs)
    subst this
    rw [hnil]
    rfl
  | succ n ih =>
    intro s hs hsp
    cases s with
    | nil => rw [hnil]; rfl
    | cons c cs =>
      have hlcs : cs.length ≤ n := Nat.le_of_succ_le_succ (by simpa using hs)
      by_cases hc : isSpaceChar c = true
      · have hceq : c = ' ' := hsp c (List.mem_cons_self _ _) hc
        subst hceq
        have h1 : f (' ' :: cs) = ' ' :: f cs := by
          have := hdist [] cs
          simpa [hnil] using this
        rw [h1, tokenize_cons_space _ (by decide), tokenize_cons_space cs (by decide),
          ih cs hlcs (fun d hd hsd => hsp d (List.mem_cons_of_mem _ hd) hsd)]
      · have hc' : isSpaceChar c = false := by simpa using hc
        rcases hR : cs.dropWhile nonSp with _ | ⟨r, R⟩
        · -- no whitespace at all in `c :: cs`
          have hcs_eq : cs.takeWhile nonSp = cs := by
            have := List.takeWhile_append_dropWhile nonSp cs
            rw [hR] at this
            simpa using this
          have hsf : ∀ d ∈ c :: cs, isSpaceChar d = false := by
            intro d hd
            rcases List.mem_cons.mp hd with hd | hd
            · subst hd; exact hc'
            · have hd' : d ∈ cs.takeWhile nonSp := by rw [hcs_eq]; exact hd
              have := List.mem_takeWhile_imp hd'
              simpa [nonSp] using this
          have hfs : ∀ d ∈ f (c :: cs), isSpaceChar d = false := fun d hd =>
            hsf d (hsub _ d hd)
          rw [tokenize_no_space hfs, tokenize_no_space hsf]
          rcases hfe : f (c :: cs) with _ | ⟨x, xs⟩ <;> simp [hfe]
        · -- `c :: cs = (c :: P) ++ ' ' :: R` with `P` the leading space-free run
          have hrs : isSpaceChar r = true := by
            have := List.head?_dropWhile_not nonSp cs
            rw [hR] at this
            simpa [nonSp] using this
          have hrmem : r ∈ cs := (List.dropWhile_sublist nonSp).mem (by
            rw [hR]; exact List.mem_cons_self _ _)
          have hreq : r = ' ' := hsp r (List.mem_cons_of_mem _ hrmem) hrs
          subst hreq
          have hdecomp : c :: cs = (c :: cs.takeWhile nonSp) ++ ' ' :: R := by
            have := List.takeWhile_append_dropWhile nonSp cs
            rw [hR] at this
            exact congrArg (c :: ·) this.symm
          have hPsf : ∀ d ∈ c :: cs.takeWhile nonSp, isSpaceChar d = false := by
            intro d hd
            rcases List.mem_cons.mp hd with hd | hd
            · subst hd; exact hc'
            · have := List.mem_takeWhile_imp hd
              simpa [nonSp] using this
          have hRlen : R.length ≤ n := by
            have h1 : (' ' :: R).length ≤ cs.length := by
              rw [← hR]; exact (List.dropWhile_sublist nonSp).length_le
            simp only [List.length_cons] at h1
            omega
          have hRsub : ∀ d ∈ R, d ∈ c :: cs := by
            intro d hd
            exact List.mem_cons_of_mem _ ((List.dropWhile_sublist nonSp).mem (by
              rw [hR]; exact List.mem_cons_of_mem _ hd))
          have hRsp : ∀ d ∈ R, isSpaceChar d = true → d = ' ' := fun d hd hsd =>
            hsp d (hRsub d hd) hsd
          have hfR := ih R hRlen hRsp
          rw [hdecomp, hdist (c :: cs.takeWhile nonSp) R]
          rw [tokenize_append_space R (by simp) hPsf]
          rcases hft : f (c :: cs.takeWhile nonSp) with _ | ⟨x, xs⟩
          · rw [List.nil_append, tokenize_cons_space _ (by decide), hfR]
            simp [hft]
          · have hfsf : ∀ d ∈ f (c :: cs.takeWhile nonSp), isSpaceChar d = false :=
              fun d hd => hPsf d (hsub _ d hd)
            rw [← hft, tokenize_append_space (f R) (by rw [hft]; simp) hfsf, hfR]
            simp [List.filter_cons, hft]

theorem tokenize_comm (f : List Char → List Char)
    (hnil : f [] = [])
    (hdist : ∀ a b, f (a ++ ' ' :: b) = f a ++ ' ' :: f b)
    (hsub : ∀ s c, c ∈ f s → c ∈ s)
    (s : List Char) (hsp : ∀ c ∈ s, isSpaceChar c = true → c = ' ') :
    tokenize (f s) = ((tokenize s).map f).filter (fun t => !t.isEmpty) :=
  tokenize_comm_aux f hnil hdist hsub s.length s le_rfl hsp

/-! ## `tokenize` is blind to whitespace collapsing and stripping -/

theorem tokenize_all_space :
    ∀ (s : List Char), (∀ c ∈ s, isSpaceChar c = true) → tokenize s = [] := by
  intro s
  induction s with
  | nil => intro _; rfl
  | cons c cs ih =>
    intro h
    rw [tokenize_cons_space cs (h c (List.mem_cons_self _ _))]
    exact ih (fun d hd => h d (List.mem_cons_of_mem _ hd))

theorem takeWhile_nonSp_all_space {s : List Char}
    (h : ∀ c ∈ s, isSpaceChar c = true) : s.takeWhile nonSp = [] := by
  cases s with
  | nil => rfl
  | cons c cs =>
    rw [List.takeWhile_cons, if_neg (by simp [nonSp, h c (List.mem_cons_self _ _)])]

theorem dropWhile_nonSp_all_space {s : List Char}
    (h : ∀ c ∈ s, isSpaceChar c = true) : s.dropWhile nonSp = s := by
  cases s with
  | nil => rfl
  | cons c cs =>
    rw [List.dropWhile_cons, if_neg (by simp [nonSp, h c (List.mem_cons_self _ _)])]

theorem dropTrailingSpaces_eq_nil_imp :
    ∀ (s : List Char), dropTrailingSpaces s = [] → ∀ c ∈ s, isSpaceChar c = true := by
  intro s
  induction s with
  | nil => intro _ c hc; simp at hc
  | cons d cs ih =>
    intro h c hc
    simp only [dropTrailingSpaces] at h
    split at h
    · split at h
      · next hemp hd =>
        rcases List.mem_cons.mp hc with hc | hc
        · subst hc; exact hd
        · exact ih (List.isEmpty_iff.mp (by simpa using hemp)) c hc
      · simp at h
    · simp at h

theorem collapseSpaces_nonsp_prefix :
    ∀ (P R : List Char), (∀ d ∈ P, isSpaceChar d = false) →
      collapseSpaces (P ++ R) = P ++ collapseSpaces R := by
  intro P R
  induction P with
  | nil => intro _; rfl
  | cons d P ih =>
    intro h
    rw [List.cons_append, collapseSpaces_cons_nonspace _ (h d (List.mem_cons_self _ _)),
      ih (fun e he => h e (List.mem_cons_of_mem _ he)), List.cons_append]

theorem tokenize_collapseSpaces_aux :
    ∀ (n : Nat) (s : List Char), s.length ≤ n →
      tokenize (collapseSpaces s) = tokenize s := by
  intro n
  induction n with
  | zero =>
    intro s hs
    have : s = [] := List.length_eq_zero.mp (Nat.le_zero.mp hs)
    subst this
    rfl
  | succ n ih =>
    intro s hs
    cases s with
    | nil => rfl
    | cons c cs =>
      have hlcs : cs.length ≤ n := Nat.le_of_succ_le_succ (by simpa using hs)
      by_cases hc : isSpaceChar c = true
      · rw [collapseSpaces_cons_space cs hc, tokenize_cons_space _ (by decide),
          tokenize_cons_space cs hc,
          ih (cs.dropWhile isSpaceChar) (le_trans (List.dropWhile_sublist _).length_le hlcs),
          tokenize_dropWhile_space]
      · have hc' : isSpaceChar c = false := by simpa using hc
        rw [collapseSpaces_cons_nonspace cs hc']
        have hPsf : ∀ d ∈ cs.takeWhile nonSp, nonSp d = true := fun d hd =>
          List.mem_takeWhile_imp hd
        have hcol : collapseSpaces cs =
            cs.takeWhile nonSp ++ collapseSpaces (cs.dropWhile nonSp) := by
          conv_lhs => rw [← List.takeWhile_append_dropWhile nonSp cs]
          exact collapseSpaces_nonsp_prefix _ _ (fun d hd => by
            have := hPsf d hd; simpa [nonSp] using this)
        rw [tokenize_cons_nonspace _ hc', tokenize_cons_nonspace cs hc', hcol]
        rcases hR : cs.dropWhile nonSp with _ | ⟨r, R⟩
        · rw [collapseSpaces_nil, List.append_nil,
            takeWhile_eq_self_of_all nonSp _ hPsf,
            dropWhile_eq_nil_of_all nonSp _ hPsf]
        · have hrs : isSpaceChar r = true := by
            have := List.head?_dropWhile_not nonSp cs
            rw [hR] at this
            simpa [nonSp] using this
          have hcolR : collapseSpaces (r :: R) =
              ' ' :: collapseSpaces (R.dropWhile isSpaceChar) :=
            collapseSpaces_cons_space R hrs
          have hrRlen : (r :: R).length ≤ n := by
            have h1 : (r :: R).length ≤ cs.length := by
              rw [← hR]; exact (List.dropWhile_sublist nonSp).length_le
            omega
          have e1 : (cs.takeWhile nonSp ++ collapseSpaces (r :: R)).takeWhile nonSp =
              cs.takeWhile nonSp := by
            rw [hcolR, takeWhile_append_all nonSp _ _ hPsf, List.takeWhile_cons,
              if_neg (by decide), List.append_nil]
          have e2 : (cs.takeWhile nonSp ++ collapseSpaces (r :: R)).dropWhile nonSp =
              collapseSpaces (r :: R) := by
            rw [hcolR, dropWhile_append_all nonSp _ _ hPsf, List.dropWhile_cons,
              if_neg (by decide), ← hcolR]
          rw [e1, e2, ih (r :: R) hrRlen]

theorem tokenize_collapseSpaces (s : List Char) :
    tokenize (collapseSpaces s) = tokenize s :=
  tokenize_collapseSpaces_aux s.length s le_rfl

theorem dropTrailingSpaces_cons (c : Char) (cs : List Char) :
    dropTrailingSpaces (c :: cs) =
      if (dropTrailingSpaces cs).isEmpty then (if isSpaceChar c then [] else [c])
      else c :: dropTrailingSpaces cs := rfl

theorem takeWhile_nonSp_dropTrailing :
    ∀ (s : List Char), (dropTrailingSpaces s).takeWhile nonSp = s.takeWhile nonSp := by
  intro s
  induction s with
  | nil => rfl
  | cons d cs ih =>
    rw [dropTrailingSpaces_cons]
    by_cases hemp : (dropTrailingSpaces cs).isEmpty = true
    · have hall : ∀ c ∈ cs, isSpaceChar c = true :=
        dropTrailingSpaces_eq_nil_imp cs (List.isEmpty_iff.mp hemp)
      rw [if_pos hemp]
      by_cases hd : isSpaceChar d = true
      · rw [if_pos hd]
        have e2 : (d :: cs).takeWhile nonSp = [] := by
          rw [List.takeWhile_cons, if_neg (by simp [nonSp, hd])]
        rw [e2]
        rfl
      · have hd' : isSpaceChar d = false := by simpa using hd
        rw [if_neg (by simp [hd'])]
        have e1 : (([d] : List Char)).takeWhile nonSp = [d] := by
          rw [List.takeWhile_cons, if_pos (by simp [nonSp, hd'])]
          rfl
        have e2 : (d :: cs).takeWhile nonSp = [d] := by
          rw [List.takeWhile_cons, if_pos (by simp [nonSp, hd']),
            takeWhile_nonSp_all_space hall]
        rw [e1, e2]
    · rw [if_neg hemp]
      by_cases hd : isSpaceChar d = true
      · have e1 : (d :: dropTrailingSpaces cs).takeWhile nonSp = [] := by
          rw [List.takeWhile_cons, if_neg (by simp [nonSp, hd])]
        have e2 : (d :: cs).takeWhile nonSp = [] := by
          rw [List.takeWhile_cons, if_neg (by simp [nonSp, hd])]
        rw [e1, e2]
      · have hd' : isSpaceChar d = false := by simpa using hd
        have e1 : (d :: dropTrailingSpaces cs).takeWhile nonSp =
            d :: (dropTrailingSpaces cs).takeWhile nonSp := by
          rw [List.takeWhile_cons, if_pos (by simp [nonSp, hd'])]
        have e2 : (d :: cs).takeWhile nonSp = d :: cs.takeWhile nonSp := by
          rw [List.takeWhile_cons, if_pos (by simp [nonSp, hd'])]
        rw [e1, e2, ih]

theorem dropWhile_nonSp_dropTrailing :
    ∀ (s : List Char),
      (dropTrailingSpaces s).dropWhile nonSp = dropTrailingSpaces (s.dropWhile nonSp) := by
  intro s
  induction s with
  | nil => rfl
  | cons d cs ih =>
    rw [dropTrailingSpaces_cons]
    by_cases hemp : (dropTrailingSpaces cs).isEmpty = true
    · have hall : ∀ c ∈ cs, isSpaceChar c = true :=
        dropTrailingSpaces_eq_nil_imp cs (List.isEmpty_iff.mp hemp)
      rw [if_pos hemp]
      by_cases hd : isSpaceChar d = true
      · rw [if_pos hd]
        have e2 : (d :: cs).dropWhile nonSp = d :: cs := by
          rw [List.dropWhile_cons, if_neg (by simp [nonSp, hd])]
        rw [e2, dropTrailingSpaces_cons, if_pos hemp, if_pos hd]
        rfl
      · have hd' : isSpaceChar d = false := by simpa using hd
        rw [if_neg (by simp [hd'])]
        have e1 : (([d] : List Char)).dropWhile nonSp = [] := by
          rw [List.dropWhile_cons, if_pos (by simp [nonSp, hd'])]
          rfl
        have e2 : (d :: cs).dropWhile nonSp = cs := by
          rw [List.dropWhile_cons, if_pos (by simp [nonSp, hd'])]
          exact dropWhile_nonSp_all_space hall
        rw [e1, e2]
        exact (List.isEmpty_iff.mp hemp).symm
    · rw [if_neg hemp]
      by_cases hd : isSpaceChar d = true
      · have e1 : (d :: dropTrailingSpaces cs).dropWhile nonSp =
            d :: dropTrailingSpaces cs := by
          rw [List.dropWhile_cons, if_neg (by simp [nonSp, hd])]
        have e2 : (d :: cs).dropWhile nonSp = d :: cs := by
          rw [List.dropWhile_cons, if_neg (by simp [nonSp, hd])]
        rw [e1, e2, dropTrailingSpaces_cons, if_neg hemp]
      · have hd' : isSpaceChar d = false := by simpa using hd
        have e1 : (d :: dropTrailingSpaces cs).dropWhile nonSp =
            (dropTrailingSpaces cs).dropWhile nonSp := by
          rw [List.dropWhile_cons, if_pos (by simp [nonSp, hd'])]
        have e2 : (d :: cs).dropWhile nonSp = cs.dropWhile nonSp := by
          rw [List.dropWhile_cons, if_pos (by simp [nonSp, hd'])]
        rw [e1, e2, ih]

theorem tokenize_dropTrailing_aux :
    ∀ (n : Nat) (s : List Char), s.length ≤ n →
      tokenize (dropTrailingSpaces s) = tokenize s := by
  intro n
  induction n with
  | zero =>
    intro s hs
    have : s = [] := List.length_eq_zero.mp (Nat.le_zero.mp hs)
    subst this
    rfl
  | succ n ih =>
    intro s hs
    cases s with
    | nil => rfl
    | cons c cs =>
      have hlcs : cs.length ≤ n := Nat.le_of_succ_le_succ (by simpa using hs)
      rw [dropTrailingSpaces_cons]
      by_cases hemp : (dropTrailingSpaces cs).isEmpty = true
      · have hall : ∀ d ∈ cs, isSpaceChar d = true :=
          dropTrailingSpaces_eq_nil_imp cs (List.isEmpty_iff.mp hemp)
        rw [if_pos hemp]
        by_cases hc : isSpaceChar c = true
        · rw [if_pos hc, tokenize_nil, tokenize_cons_space cs hc, tokenize_all_space cs hall]
        · have hc' : isSpaceChar c = false := by simpa using hc
          rw [if_neg (by simp [hc']), tokenize_cons_nonspace cs hc',
            takeWhile_nonSp_all_space hall, dropWhile_nonSp_all_space hall,
            tokenize_all_space cs hall]
          simp [tokenize, hc']
      · rw [if_neg hemp]
        by_cases hc : isSpaceChar c = true
        · rw [tokenize_cons_space _ hc, tokenize_cons_space cs hc, ih cs hlcs]
        · have hc' : isSpaceChar c = false := by simpa using hc
          rw [tokenize_cons_nonspace _ hc', tokenize_cons_nonspace cs hc',
            takeWhile_nonSp_dropTrailing, dropWhile_nonSp_dropTrailing,
            ih (cs.dropWhile nonSp) (le_trans (List.dropWhile_sublist _).length_le hlcs)]

theorem tokenize_trimSpaces (s : List Char) : tokenize (trimSpaces s) = tokenize s := by
  unfold trimSpaces
  rw [tokenize_dropTrailing_aux (s.dropWhile isSpaceChar).length _ le_rfl,
    tokenize_dropWhile_space]

/-! ## `removeGreetings` distributes over a space

The three greeting patterns contain no space, so no match can straddle a
token boundary. -/

theorem take_eq_pattern (p : List Char) (hp : ' ' ∉ p) (n : Nat) (hn : n = p.length)
    (a b : List Char) :
    ((a ++ ' ' :: b).take n = p) ↔ (a.take n = p) := by
  by_cases hlen : n ≤ a.length
  · rw [List.take_append_eq_append_take, Nat.sub_eq_zero_of_le hlen, List.take_zero,
      List.append_nil]
  · have hlt : a.length < n := by omega
    constructor
    · intro h
      exfalso
      apply hp
      rw [← h, List.take_append_eq_append_take]
      refine List.mem_append.mpr (Or.inr ?_)
      rcases hk : n - a.length with _ | m
      · omega
      · rw [List.take_succ_cons]
        exact List.mem_cons_self _ _
    · intro h
      exfalso
      have := congrArg List.length h
      rw [List.length_take] at this
      omega

theorem removeGreetings_space_cons (b : List Char) :
    removeGreetings (' ' :: b) = ' ' :: removeGreetings b := by
  rw [removeGreetings_cons]
  simp

theorem removeGreetings_append_space_aux :
    ∀ (n : Nat) (a : List Char), a.length ≤ n → ∀ b,
      removeGreetings (a ++ ' ' :: b) = removeGreetings a ++ ' ' :: removeGreetings b := by
  intro n
  induction n with
  | zero =>
    intro a ha b
    have : a = [] := List.length_eq_zero.mp (Nat.le_zero.mp ha)
    subst this
    rw [List.nil_append, removeGreetings_space_cons, removeGreetings_nil, List.nil_append]
  | succ n ih =>
    intro a ha b
    cases a with
    | nil =>
      rw [List.nil_append, removeGreetings_space_cons, removeGreetings_nil, List.nil_append]
    | cons c a' =>
      have ha' : a'.length ≤ n := Nat.le_of_succ_le_succ (by simpa using ha)
      rw [List.cons_append, removeGreetings_cons, removeGreetings_cons c a']
      have e1 : ((a' ++ ' ' :: b).take 5 = ['i', 'n', 'd', 'l', 'y']) ↔
          (a'.take 5 = ['i', 'n', 'd', 'l', 'y']) :=
        take_eq_pattern ['i', 'n', 'd', 'l', 'y'] (by decide) 5 rfl a' b
      have e2 : ((a' ++ ' ' :: b).take 1 = ['i']) ↔ (a'.take 1 = ['i']) :=
        take_eq_pattern ['i'] (by decide) 1 rfl a' b
      have e3 : ((a' ++ ' ' :: b).take 4 = ['e', 'l', 'l', 'o']) ↔
          (a'.take 4 = ['e', 'l', 'l', 'o']) :=
        take_eq_pattern ['e', 'l', 'l', 'o'] (by decide) 4 rfl a' b
      simp only [Bool.and_eq_true, decide_eq_true_eq, e1, e2, e3]
      split_ifs with h1 h2 h3
      · have hlen5 : 5 ≤ a'.length := by
          have := congrArg List.length h1.2
          rw [List.length_take] at this
          simp at this
          omega
        rw [List.drop_append_eq_append_drop, Nat.sub_eq_zero_of_le hlen5, List.drop_zero]
        exact ih (a'.drop 5) (le_trans (by simpa using List.length_drop_le 5 a') ha') b
      · have hlen1 : 1 ≤ a'.length := by
          have := congrArg List.length h2.2
          rw [List.length_take] at this
          simp at this
          omega
        rw [List.drop_append_eq_append_drop, Nat.sub_eq_zero_of_le hlen1, List.drop_zero]
        exact ih (a'.drop 1) (le_trans (by simpa using List.length_drop_le 1 a') ha') b
      · have hlen4 : 4 ≤ a'.length := by
          have := congrArg List.length h3.2
          rw [List.length_take] at this
          simp at this
          omega
        rw [List.drop_append_eq_append_drop, Nat.sub_eq_zero_of_le hlen4, List.drop_zero]
        exact ih (a'.drop 4) (le_trans (by simpa using List.length_drop_le 4 a') ha') b
      · rw [ih a' ha' b, List.cons_append]

theorem removeGreetings_append_space (a b : List Char) :
    removeGreetings (a ++ ' ' :: b) = removeGreetings a ++ ' ' :: removeGreetings b :=
  removeGreetings_append_space_aux a.length a le_rfl b

/-! ## Character-class implications -/

theorem isAsciiLetter_isWordChar {c : Char} (h : isAsciiLetter c = true) :
    isWordChar c = true := by
  simp only [isAsciiLetter, Bool.or_eq_true] at h
  simp only [isWordChar, Bool.or_eq_true]
  tauto

theorem isAsciiLetter_not_space {c : Char} (h : isAsciiLetter c = true) :
    isSpaceChar c = false := by
  by_cases hs : isSpaceChar c = true
  · simp only [isSpaceChar, Bool.or_eq_true, decide_eq_true_eq] at hs
    rcases hs with ((((h' | h') | h') | h') | h') | h' <;> subst h' <;>
      simp [isAsciiLetter] at h
  · simpa using hs

theorem isAsciiLetter_not_digit {c : Char} (h : isAsciiLetter c = true) :
    isDigitChar c = false := by
  simp only [isAsciiLetter, Bool.or_eq_true, Bool.and_eq_true, decide_eq_true_eq] at h
  simp only [isDigitChar, Bool.and_eq_true, decide_eq_true_eq]
  by_cases hd : ('0' ≤ c ∧ c ≤ '9')
  · exfalso
    rcases h with ⟨h1, _⟩ | ⟨h1, _⟩
    · exact absurd (le_trans h1 hd.2) (by decide)
    · exact absurd (le_trans h1 hd.2) (by decide)
  · simpa using hd

theorem isKeptChar_cases {c : Char} (h : isKeptChar c = true) :
    isAsciiLetter c = true ∨ c = '+' := by
  simp only [isKeptChar, Bool.or_eq_true, decide_eq_true_eq] at h
  simp only [isAsciiLetter, Bool.or_eq_true]
  tauto

theorem lemchar_not_space {c : Char} (h : isAsciiLetter c = true ∨ c = '+') :
    isSpaceChar c = false := by
  rcases h with h | h
  · exact isAsciiLetter_not_space h
  · subst h; decide

theorem lemchar_fix_dotComma {c : Char} (h : isAsciiLetter c = true ∨ c = '+') :
    dotCommaToSpace c = c := by
  rcases h with h | h
  · by_cases hd : (c = '.' ∨ c = ',')
    · rcases hd with hd | hd <;> subst hd <;> simp [isAsciiLetter] at h
    · simp only [dotCommaToSpace]
      rw [if_neg (by simpa [not_or] using hd)]
  · subst h; decide

/-! ## Characters appearing after the cleaning step -/

theorem cleanChars_charset (text : List Char) :
    ∀ c ∈ cleanChars text, isKeptChar c = true ∨ c = ' ' := by
  intro c hc
  simp only [cleanChars, List.map_map, List.mem_map, Function.comp] at hc
  obtain ⟨d, _, hd⟩ := hc
  by_cases h : isKeptChar (Char.toLower d) = true
  · left; rw [← hd, if_pos h]; exact h
  · right; rw [← hd, if_neg h]

theorem cleanChars_space_only (text : List Char) :
    ∀ c ∈ cleanChars text, isSpaceChar c = true → c = ' ' := by
  intro c hc hs
  rcases cleanChars_charset text c hc with h | h
  · rcases isKeptChar_cases h with h | h
    · rw [isAsciiLetter_not_space h] at hs; exact absurd hs (by simp)
    · subst h; exact absurd hs (by decide)
  · exact h

/-! ## Tokenizing the two regex deletions -/

theorem tokenize_removeGreetings (s : List Char)
    (hsp : ∀ c ∈ s, isSpaceChar c = true → c = ' ') :
    tokenize (removeGreetings s) =
      ((tokenize s).map removeGreetings).filter (fun t => !t.isEmpty) :=
  tokenize_comm removeGreetings removeGreetings_nil removeGreetings_append_space
    (fun _ _ h => mem_of_mem_removeGreetings h) s hsp

theorem tokenize_removeShortRuns (s : List Char)
    (hsp : ∀ c ∈ s, isSpaceChar c = true → c = ' ') :
    tokenize (removeShortRuns s) =
      ((tokenize s).map removeShortRuns).filter (fun t => !t.isEmpty) :=
  tokenize_comm removeShortRuns removeShortRuns_nil removeShortRuns_append_space
    (fun _ _ h => mem_of_mem_removeShortRuns h) s hsp

theorem filter_map_filter_nonempty (f : List Char → List Char) (hf : f [] = []) :
    ∀ (toks : List (List Char)),
      (((toks.filter (fun t => !t.isEmpty)).map f).filter (fun t => !t.isEmpty)) =
        ((toks.map f).filter (fun t => !t.isEmpty)) := by
  intro toks
  induction toks with
  | nil => rfl
  | cons t ts ih =>
    by_cases ht : t.isEmpty = true
    · have : t = [] := List.isEmpty_iff.mp ht
      subst this
      simp only [List.filter_cons, List.map_cons, hf]
      simpa using ih
    · simp only [List.filter_cons, List.map_cons, ht]
      simp only [Bool.not_false, if_true, List.map_cons, List.filter_cons]
      rw [ih]

/-! ## The tokens of `preprocess_text` -/

theorem preprocess_text_eq (self : TicketClustering) (text : List Char) :
    preprocess_text self text =
      trimSpaces (collapseSpaces (removeShortRuns
        ((joinSp (keptTokens self text)).map dotCommaToSpace))) := rfl

theorem kept_tokens_charset (self : TicketClustering) (text : List Char)
    (hlem : ∀ t : List Char, ∀ c ∈ self.lemmatize t, isAsciiLetter c = true ∨ c = '+') :
    ∀ t ∈ keptTokens self text, ∀ c ∈ t, isAsciiLetter c = true ∨ c = '+' := by
  intro t ht c hc
  simp only [keptTokens, List.mem_map] at ht
  obtain ⟨w, _, hw⟩ := ht
  exact hlem w c (hw ▸ hc)

theorem tokenize_preprocess_text (self : TicketClustering) (text : List Char)
    (hlem : ∀ t : List Char, ∀ c ∈ self.lemmatize t, isAsciiLetter c = true ∨ c = '+') :
    tokenize (preprocess_text self text) =
      ((keptTokens self text).map removeShortRuns).filter (fun t => !t.isEmpty) := by
  have htoks := kept_tokens_charset self text hlem
  rw [preprocess_text_eq, tokenize_trimSpaces, tokenize_collapseSpaces]
  have hmapfix : (joinSp (keptTokens self text)).map dotCommaToSpace =
      joinSp (keptTokens self text) := by
    apply map_eq_self_of_fix
    intro c hc
    rcases mem_joinSp _ c hc with ⟨t, ht, hct⟩ | hc'
    · exact lemchar_fix_dotComma (htoks t ht c hct)
    · subst hc'; decide
  rw [hmapfix]
  have hsp : ∀ c ∈ joinSp (keptTokens self text), isSpaceChar c = true → c = ' ' := by
    intro c hc hcs
    rcases mem_joinSp _ c hc with ⟨t, ht, hct⟩ | hc'
    · rw [lemchar_not_space (htoks t ht c hct)] at hcs
      exact absurd hcs (by simp)
    · exact hc'
  rw [tokenize_removeShortRuns _ hsp]
  have hjoin : tokenize (joinSp (keptTokens self text)) =
      (keptTokens self text).filter (fun t => !t.isEmpty) := by
    apply tokenize_joinSp
    intro t ht c hct
    exact lemchar_not_space (htoks t ht c hct)
  rw [hjoin, filter_map_filter_nonempty removeShortRuns removeShortRuns_nil]

theorem preprocess_text_charset (self : TicketClustering) (text : List Char)
    (hlem : ∀ t : List Char, ∀ c ∈ self.lemmatize t, isAsciiLetter c = true ∨ c = '+') :
    ∀ c ∈ preprocess_text self text, isAsciiLetter c = true ∨ c = '+' ∨ c = ' ' := by
  have htoks := kept_tokens_charset self text hlem
  intro c hc
  rw [preprocess_text_eq] at hc
  have hc1 := mem_of_mem_trimSpaces hc
  rcases mem_of_mem_collapseSpaces _ c hc1 with hc2 | hceq
  · have hc3 := mem_of_mem_removeShortRuns hc2
    simp only [List.mem_map] at hc3
    obtain ⟨d, hd, hdc⟩ := hc3
    rcases mem_joinSp _ d hd with ⟨t, ht, hdt⟩ | hd'
    · have hcls := htoks t ht d hdt
      rw [← hdc, lemchar_fix_dotComma hcls]
      rcases hcls with h | h
      · exact Or.inl h
      · exact Or.inr (Or.inl h)
    · rw [← hdc, hd']
      right; right
      rfl
  · exact Or.inr (Or.inr hceq)

/-! ## Preserved operator tokens -/

theorem op_chars : ∀ w ∈ operator_tokens, ∀ c ∈ w, isAsciiLetter c = true := by decide

theorem op_greet_fix : ∀ w ∈ operator_tokens, removeGreetings w = w := by decide

theorem op_nonempty : ∀ w ∈ operator_tokens, w ≠ [] := by decide

theorem op_not_stop (base : List (List Char)) :
    ∀ w ∈ operator_tokens, w ∉ init_stop_words base := by
  intro w hw hmem
  rw [init_stop_words, List.mem_filter] at hmem
  have := hmem.2
  simp only [Bool.not_eq_true', decide_eq_false_iff_not] at this
  exact this hw

theorem operator_token_survives (self : TicketClustering) (base : List (List Char))
    (text : List Char)
    (hSW : self.stop_words = init_stop_words base)
    (hlem : ∀ t : List Char, ∀ c ∈ self.lemmatize t, isAsciiLetter c = true ∨ c = '+')
    (hOps : ∀ w ∈ operator_tokens, self.lemmatize w = w)
    (t : List Char) (htok : t ∈ tokenize (cleanChars text)) (hop : t ∈ operator_tokens)
    (hlen : 3 ≤ t.length) :
    t ∈ tokenize (preprocess_text self text) := by
  have hfixg : removeGreetings t = t := op_greet_fix t hop
  have htne : t ≠ [] := op_nonempty t hop
  -- the token survives the greeting deletion
  have h1 : t ∈ tokenize (removeGreetings (cleanChars text)) := by
    rw [tokenize_removeGreetings _ (cleanChars_space_only text)]
    refine List.mem_filter.mpr ⟨List.mem_map.mpr ⟨t, htok, hfixg⟩, ?_⟩
    simp [List.isEmpty_iff, htne]
  -- it is not a stop word, so the filter keeps it, and the lemmatizer fixes it
  have h2 : t ∈ keptTokens self text := by
    rw [keptTokens]
    refine List.mem_map.mpr ⟨t, ?_, hOps t hop⟩
    refine List.mem_filter.mpr ⟨h1, ?_⟩
    simp only [Bool.not_eq_true', decide_eq_false_iff_not, hSW]
    exact op_not_stop base t hop
  -- the short-run filter keeps it whole, since it is all letters of length 3 or more
  have hword : ∀ c ∈ t, isWordChar c = true := fun c hc =>
    isAsciiLetter_isWordChar (op_chars t hop c hc)
  have h3 : removeShortRuns t = t := by
    rw [removeShortRuns_all_word hword, if_neg (by omega)]
  rw [tokenize_preprocess_text self text hlem]
  refine List.mem_filter.mpr ⟨List.mem_map.mpr ⟨t, h2, h3⟩, ?_⟩
  simp [List.isEmpty_iff, htne]

/-! ## Every output token descends from a token kept by the stop-word filter -/

theorem output_tokens_from_kept (self : TicketClustering) (text : List Char)
    (hlem : ∀ t : List Char, ∀ c ∈ self.lemmatize t, isAsciiLetter c = true ∨ c = '+') :
    ∀ tok ∈ tokenize (preprocess_text self text),
      ∃ w ∈ tokenize (removeGreetings (cleanChars text)),
        w ∉ self.stop_words ∧ tok = removeShortRuns (self.lemmatize w) := by
  intro tok htok
  rw [tokenize_preprocess_text self text hlem] at htok
  obtain ⟨hmem, hne⟩ := List.mem_filter.mp htok
  obtain ⟨t, ht, hrt⟩ := List.mem_map.mp hmem
  have ht' : t ∈ ((tokenize (removeGreetings (cleanChars text))).filter
      (fun w => !(decide (w ∈ self.stop_words)))).map self.lemmatize := ht
  obtain ⟨w, hw, hlw⟩ := List.mem_map.mp ht'
  obtain ⟨hwmem, hwpred⟩ := List.mem_filter.mp hw
  refine ⟨w, hwmem, ?_, ?_⟩
  · simpa only [Bool.not_eq_true', decide_eq_false_iff_not] using hwpred
  · rw [hlw, hrt]

/-! ## `np.argmax` returns the first occurrence of the maximum -/

theorem argmaxAux_spec :
    ∀ (xs p : List ℚ) (b : Nat) (v : ℚ),
      b < p.length → p.getD b 0 = v →
      (∀ t, t < p.length → p.getD t 0 ≤ v) →
      (∀ t, t < b → p.getD t 0 < v) →
      argmaxAux xs p.length b v < (p ++ xs).length ∧
        (∀ t, t < (p ++ xs).length →
          (p ++ xs).getD t 0 ≤ (p ++ xs).getD (argmaxAux xs p.length b v) 0) ∧
        (∀ t, t < argmaxAux xs p.length b v →
          (p ++ xs).getD t 0 < (p ++ xs).getD (argmaxAux xs p.length b v) 0) := by
  intro xs
  induction xs with
  | nil =>
    intro p b v hb hbv hle hlt
    simp only [argmaxAux, List.append_nil]
    refine ⟨hb, ?_, ?_⟩
    · intro t ht
      rw [hbv]
      exact hle t ht
    · intro t ht
      rw [hbv]
      exact hlt t ht
  | cons x xs ih =>
    intro p b v hb hbv hle hlt
    have hlenx : (p ++ [x]).length = p.length + 1 := by simp
    have hassoc : (p ++ [x]) ++ xs = p ++ x :: xs := by simp
    by_cases hvx : v < x
    · have h1 : argmaxAux (x :: xs) p.length b v = argmaxAux xs (p ++ [x]).length p.length x := by
        simp only [argmaxAux, if_pos hvx, hlenx]
      have hspec := ih (p ++ [x]) p.length x
        (by omega)
        (by rw [List.getD_append_right p [x] 0 p.length le_rfl, Nat.sub_self]; rfl)
        (by
          intro t ht
          rw [hlenx] at ht
          rcases Nat.lt_or_ge t p.length with h | h
          · rw [List.getD_append p [x] 0 t h]
            exact le_of_lt (lt_of_le_of_lt (hle t h) hvx)
          · have heq : t = p.length := by omega
            subst heq
            rw [List.getD_append_right p [x] 0 p.length le_rfl, Nat.sub_self]
            exact le_rfl)
        (by
          intro t ht
          rw [List.getD_append p [x] 0 t ht]
          exact lt_of_le_of_lt (hle t ht) hvx)
      rw [h1]
      rw [hassoc] at hspec
      exact hspec
    · have h1 : argmaxAux (x :: xs) p.length b v = argmaxAux xs (p ++ [x]).length b v := by
        simp only [argmaxAux, if_neg hvx, hlenx]
      have hspec := ih (p ++ [x]) b v
        (by rw [hlenx]; omega)
        (by rw [List.getD_append p [x] 0 b hb]; exact hbv)
        (by
          intro t ht
          rw [hlenx] at ht
          rcases Nat.lt_or_ge t p.length with h | h
          · rw [List.getD_append p [x] 0 t h]
            exact hle t h
          · have heq : t = p.length := by omega
            subst heq
            rw [List.getD_append_right p [x] 0 p.length le_rfl, Nat.sub_self]
            exact le_of_not_lt hvx)
        (by
          intro t ht
          rw [List.getD_append p [x] 0 t (lt_trans ht hb)]
          exact hlt t ht)
      rw [h1]
      rw [hassoc] at hspec
      exact hspec

theorem npArgmax_spec (l : List ℚ) (hl : l ≠ []) :
    npArgmax l < l.length ∧
      (∀ t, t < l.length → l.getD t 0 ≤ l.getD (npArgmax l) 0) ∧
      (∀ t, t < npArgmax l → l.getD t 0 < l.getD (npArgmax l) 0) := by
  cases l with
  | nil => exact absurd rfl hl
  | cons x xs =>
    have h := argmaxAux_spec xs [x] 0 x (by simp) rfl
      (by
        intro t ht
        have h0 : t = 0 := by
          simp only [List.length_cons, List.length_nil] at ht
          omega
        subst h0
        exact le_rfl)
      (by intro t ht; omega)
    simpa [npArgmax] using h

/-! ## The selection rule `K[np.argmax(scores)]` -/

theorem selectFrom_mem_max (K : List Nat) (score : Nat → ℚ) (hK : K ≠ []) :
    selectFrom K score ∈ K ∧ ∀ j ∈ K, score j ≤ score (selectFrom K score) := by
  have hmapne : K.map score ≠ [] := by simpa using hK
  obtain ⟨hr, hmax, _⟩ := npArgmax_spec (K.map score) hmapne
  have hrK : npArgmax (K.map score) < K.length := by simpa using hr
  have hsel : selectFrom K score = K[npArgmax (K.map score)] := by
    unfold selectFrom
    exact List.getD_eq_getElem K 0 hrK
  constructor
  · rw [hsel]
    exact List.getElem_mem hrK
  · intro j hj
    obtain ⟨t, htl, rfl⟩ := List.mem_iff_getElem.mp hj
    have h := hmax t (by simpa using htl)
    rw [List.getD_eq_getElem _ _ (by simpa using htl : t < (K.map score).length),
      List.getD_eq_getElem _ _ hr, List.getElem_map, List.getElem_map] at h
    rw [hsel]
    exact h

theorem selectFrom_perm_of_inj (K K' : List Nat) (score : Nat → ℚ) (hperm : K'.Perm K)
    (hinj : ∀ a ∈ K, ∀ b ∈ K, score a = score b → a = b) :
    selectFrom K' score = selectFrom K score := by
  by_cases hK : K = []
  · subst hK
    rw [hperm.eq_nil]
  · have hK' : K' ≠ [] := by
      intro h
      subst h
      exact hK hperm.nil_eq.symm
    obtain ⟨hmem, hmax⟩ := selectFrom_mem_max K score hK
    obtain ⟨hmem', hmax'⟩ := selectFrom_mem_max K' score hK'
    have h1 : score (selectFrom K' score) ≤ score (selectFrom K score) :=
      hmax _ (hperm.mem_iff.mp hmem')
    have h2 : score (selectFrom K score) ≤ score (selectFrom K' score) :=
      hmax' _ (hperm.mem_iff.mpr hmem)
    exact hinj _ (hperm.mem_iff.mp hmem') _ hmem (le_antisymm h1 h2)

/-! ## The candidate range and `find_optimal_clusters` -/

theorem mem_candidateKs (mc k : Nat) : k ∈ candidateKs mc ↔ 2 ≤ k ∧ k ≤ mc := by
  unfold candidateKs
  rw [List.mem_range']
  constructor
  · rintro ⟨i, hi, rfl⟩
    omega
  · rintro ⟨h2, hmc⟩
    exact ⟨k - 2, by omega, by omega⟩

theorem candidateKs_eq_nil_iff (mc : Nat) : candidateKs mc = [] ↔ mc < 2 := by
  unfold candidateKs
  rw [List.range'_eq_nil]
  omega

theorem find_optimal_clusters_eq {M : Type} (ops : ExternalOps M) (X : M) (ub : Nat) :
    find_optimal_clusters ops X ub =
      if candidateKs (min ub (ops.nRows X / 8)) = [] then
        Except.error "attempt to get argmax of an empty sequence"
      else
        Except.ok (selectFrom (candidateKs (min ub (ops.nRows X / 8))) (selScore ops X)) := by
  unfold find_optimal_clusters selectFrom
  by_cases h : candidateKs (min ub (ops.nRows X / 8)) = []
  · rw [if_pos h, if_pos (by simp [h])]
  · rw [if_neg h, if_neg (by simpa using h)]

theorem candidateKs_getElem (mc t : Nat) (ht : t < (candidateKs mc).length) :
    (candidateKs mc)[t] = 2 + t := by
  unfold candidateKs at *
  rw [List.getElem_range']
  omega

theorem selectFrom_candidate_ties (mc : Nat) (score : Nat → ℚ) (hmc : 2 ≤ mc) :
    ∀ j ∈ candidateKs mc, score j = score (selectFrom (candidateKs mc) score) →
      selectFrom (candidateKs mc) score ≤ j := by
  have hK : candidateKs mc ≠ [] := by
    rw [Ne, candidateKs_eq_nil_iff]
    omega
  have hmapne : (candidateKs mc).map score ≠ [] := by simpa using hK
  obtain ⟨hr, _, hstrict⟩ := npArgmax_spec ((candidateKs mc).map score) hmapne
  have hrK : npArgmax ((candidateKs mc).map score) < (candidateKs mc).length := by
    simpa using hr
  have hsel : selectFrom (candidateKs mc) score = (candidateKs mc)[npArgmax ((candidateKs mc).map score)] := by
    unfold selectFrom
    exact List.getD_eq_getElem _ 0 hrK
  intro j hj heq
  obtain ⟨t, htl, rfl⟩ := List.mem_iff_getElem.mp hj
  by_cases hlt : t < npArgmax ((candidateKs mc).map score)
  · exfalso
    have h := hstrict t hlt
    rw [List.getD_eq_getElem _ _ (by simpa using htl : t < ((candidateKs mc).map score).length),
      List.getD_eq_getElem _ _ hr, List.getElem_map, List.getElem_map] at h
    rw [hsel] at heq
    exact absurd heq (ne_of_lt h)
  · rw [hsel, candidateKs_getElem mc t htl,
      candidateKs_getElem mc _ hrK]
    omega

/-! ## Pipeline-level facts -/

theorem cleanData_eq_nil (self : TicketClustering) (df : List Record)
    (hall : ∀ r ∈ df, preprocess_text self r.question = []) :
    cleanData self df = [] := by
  rw [cleanData, List.filter_eq_nil]
  intro r hr
  rw [cleanedRows] at hr
  obtain ⟨r0, hr0, rfl⟩ := List.mem_map.mp hr
  simp [hall r0 hr0]

theorem cluster_tickets_ok_inv {M : Type} (self : TicketClustering) (ops : ExternalOps M)
    (df : List Record) (rows : List OutRow)
    (h : cluster_tickets self ops df = Except.ok rows) :
    ∃ X k, find_optimal_clusters ops X 10 = Except.ok k ∧
      (ops.kmeansFit X (finalKMeansParams k)).length = df.length ∧
      rows = sortByLabel (((cleanedRows self df).zip
        (ops.kmeansFit X (finalKMeansParams k))).map toOutRow) := by
  unfold cluster_tickets at h
  rcases hX : ops.fitTransform ((cleanData self df).map (fun r => r.description_clean)) with e | X
  · rw [hX] at h
    simp [Bind.bind, Except.bind] at h
  · rw [hX] at h
    simp only [Bind.bind, Except.bind] at h
    rcases hk : find_optimal_clusters ops X 10 with e | k
    · rw [hk] at h
      simp at h
    · rw [hk] at h
      simp only [] at h
      rcases ha1 : assignColumn (cleanData self df) (ops.kmeansFit X (finalKMeansParams k))
        with e | z1
      · rw [ha1] at h
        simp at h
      · rw [ha1] at h
        simp only [] at h
        rcases ha2 : assignColumn (cleanedRows self df) (ops.kmeansFit X (finalKMeansParams k))
          with e | z2
        · rw [ha2] at h
          simp at h
        · rw [ha2] at h
          simp only [Except.ok.injEq] at h
          refine ⟨X, k, hk, ?_, ?_⟩
          · unfold assignColumn at ha2
            by_cases hlen : (cleanedRows self df).length =
                (ops.kmeansFit X (finalKMeansParams k)).length
            · rw [← hlen, cleanedRows, List.length_map]
            · rw [if_neg hlen] at ha2
              exact absurd ha2 (by simp)
          · unfold assignColumn at ha2
            by_cases hlen : (cleanedRows self df).length =
                (ops.kmeansFit X (finalKMeansParams k)).length
            · rw [if_pos hlen] at ha2
              simp only [Except.ok.injEq] at ha2
              rw [← h, ← ha2]
            · rw [if_neg hlen] at ha2
              exact absurd ha2 (by simp)

/-! # Claim theorems -/

/-- C1: the claim says the final labelling re-joins labels to the full
original dataset by identifier, leaving exactly the empty-normalized records
unlabelled, and still succeeds when such records exist.  The code instead
executes `df['Label'] = model.labels_` (line 191), a positional assignment of
an array whose length is the number of cleaned rows; when at least one record
normalizes to the empty string, pandas raises a length-mismatch `ValueError`
and the run fails.  This theorem evaluates the model at such a failing input:
17 records of which one (`"My"`) normalizes to the empty string. -/
theorem c1_full_frame_label_assignment_fails :
    (∃ r ∈ demoDf17, preprocess_text demoSelf r.question = []) ∧
    cluster_tickets demoSelf demoOps demoDf17 =
      Except.error "Length of values does not match length of index" :=
  ⟨by decide, rfl⟩

/-- C2: for any feature matrix with `R` rows and any upper bound, the selector
evaluates exactly the candidate counts `k ∈ [2, min(upper_bound, R / 8)]`, and
when that range is empty it surfaces `np.argmax`'s `ValueError` instead of
returning a count such as `k = 1`. -/
theorem c2_candidate_range_and_empty_error {M : Type} (ops : ExternalOps M) (X : M) (ub : Nat) :
    (∀ k, k ∈ candidateKs (min ub (ops.nRows X / 8)) ↔
      2 ≤ k ∧ k ≤ min ub (ops.nRows X / 8)) ∧
    (min ub (ops.nRows X / 8) < 2 →
      find_optimal_clusters ops X ub =
        Except.error "attempt to get argmax of an empty sequence") := by
  refine ⟨fun k => mem_candidateKs _ k, fun h2 => ?_⟩
  rw [find_optimal_clusters_eq, if_pos ((candidateKs_eq_nil_iff _).mpr h2)]

/-- Witness for C2 at a concrete input: 10 rows give an effective upper bound
of 1, and the selector errors. -/
theorem c2_witness :
    (min 10 (demoOps.nRows 10 / 8) < 2) ∧
    find_optimal_clusters demoOps 10 10 =
      Except.error "attempt to get argmax of an empty sequence" :=
  ⟨by decide, (c2_candidate_range_and_empty_error demoOps 10 10).2 (by decide)⟩

/-- C3 counterexample: the claim as stated is false.  On the input `"c++"`
the normalizer returns `"++"`: the output contains `'+'`, a punctuation
character other than a space, and a whitespace-delimited token of length 2. -/
theorem c3_counterexample :
    ('+') ∈ preprocess_text demoSelf (String.toList "c++") ∧
    isAsciiLetter '+' = false ∧ isDigitChar '+' = false ∧ ('+' : Char) ≠ ' ' ∧
    (∃ tok ∈ tokenize (preprocess_text demoSelf (String.toList "c++")), tok.length < 3) := by
  decide

/-- C3 amended: provided the lemmatizer emits only letters and `'+'` (true of
WordNet on the letter-and-`'+'` tokens it receives here), the normalizer's
output contains no digits and no characters other than letters, `'+'` and
spaces — so no punctuation besides the deliberately preserved `'+'` — and
every whitespace-delimited token that contains a letter has length at least 3;
only all-`'+'` tokens may be shorter. -/
theorem c3_amended_charset_and_token_length (self : TicketClustering) (text : List Char)
    (hlem : ∀ t : List Char, ∀ c ∈ self.lemmatize t, isAsciiLetter c = true ∨ c = '+') :
    (∀ c ∈ preprocess_text self text, isDigitChar c = false) ∧
    (∀ c ∈ preprocess_text self text, isAsciiLetter c = true ∨ c = '+' ∨ c = ' ') ∧
    (∀ tok ∈ tokenize (preprocess_text self text),
      (∃ c ∈ tok, isAsciiLetter c = true) → 3 ≤ tok.length) := by
  refine ⟨?_, preprocess_text_charset self text hlem, ?_⟩
  · intro c hc
    rcases preprocess_text_charset self text hlem c hc with h | h | h
    · exact isAsciiLetter_not_digit h
    · subst h; rfl
    · subst h; rfl
  · intro tok htok hex
    rw [tokenize_preprocess_text self text hlem] at htok
    obtain ⟨hmem, hne⟩ := List.mem_filter.mp htok
    obtain ⟨t, ht, hrt⟩ := List.mem_map.mp hmem
    obtain ⟨c, hc, hcl⟩ := hex
    rw [← hrt]
    apply three_le_length_removeShortRuns
    exact ⟨c, by rw [hrt]; exact hc, isAsciiLetter_isWordChar hcl⟩

/-- Witness for the amended C3 at a concrete state and input. -/
theorem c3_witness :
    (∀ c ∈ preprocess_text demoSelfW (String.toList "Reset my c++ password 123!"),
      isDigitChar c = false) ∧
    (∀ c ∈ preprocess_text demoSelfW (String.toList "Reset my c++ password 123!"),
      isAsciiLetter c = true ∨ c = '+' ∨ c = ' ') ∧
    (∀ tok ∈ tokenize (preprocess_text demoSelfW (String.toList "Reset my c++ password 123!")),
      (∃ c ∈ tok, isAsciiLetter c = true) → 3 ≤ tok.length) :=
  c3_amended_charset_and_token_length demoSelfW (String.toList "Reset my c++ password 123!")
    (by
      intro t c hc
      have hc' : c ∈ guardLemmatize t := hc
      unfold guardLemmatize at hc'
      split at hc'
      · next hall =>
        have := List.all_eq_true.mp hall c hc'
        simpa using this
      · simp at hc')

/-- C4 counterexample: the claim as stated is false on both halves.
First, the preserved operator token `"my"` occurs as a token of the input
`"my"` but does not survive normalization: the `\b\w{1,2}\b` filter deletes
it and the output is the empty string.  Second, the output can contain a
token that is explicitly in the stop-word set: with a lemmatizer that, like
WordNet, reduces `"users"` to `"user"` (and `"user"` is in the domain stop
list), the input `"users"` passes the stop-word filter and normalizes to the
stop word `"user"`. -/
theorem c4_counterexample :
    ((String.toList "my") ∈ operator_tokens ∧
      (String.toList "my") ∈ tokenize (cleanChars (String.toList "my")) ∧
      preprocess_text demoSelf (String.toList "my") = []) ∧
    ((String.toList "user") ∈ demoSelfLem.stop_words ∧
      (String.toList "users") ∉ demoSelfLem.stop_words ∧
      (String.toList "user") ∈ tokenize (preprocess_text demoSelfLem (String.toList "users"))) := by
  decide

/-- C4 amended: with the stop-word set built by `_initialize_stop_words` and
a lemmatizer that emits only letters and `'+'` and fixes the operator tokens:
(a) the stop-word filter removes every token explicitly listed in the
stop-word set — every token of the normalizer's output descends, via
lemmatization and the short-run filter, from a token that is not in the
stop-word set (so a stop word can appear in the output only by lemmatization
mapping a kept token into the stop set, as the counterexample's
`"users" → "user"` shows); and (b) every token of the cleaned input (the
`text.split()` token list) that is a preserved operator token of length at
least 3 survives normalization; the operators shorter than 3 characters
(`"un"`, `"i"`, `"or"`, `"my"`) are instead deleted by the short-token
filter, as the counterexample shows. -/
theorem c4_amended_stopwords_and_operators (self : TicketClustering)
    (base : List (List Char)) (text : List Char)
    (hSW : self.stop_words = init_stop_words base)
    (hlem : ∀ t : List Char, ∀ c ∈ self.lemmatize t, isAsciiLetter c = true ∨ c = '+')
    (hOps : ∀ w ∈ operator_tokens, self.lemmatize w = w) :
    (∀ tok ∈ tokenize (preprocess_text self text),
      ∃ w ∈ tokenize (removeGreetings (cleanChars text)),
        w ∉ self.stop_words ∧ tok = removeShortRuns (self.lemmatize w)) ∧
    (∀ t ∈ tokenize (cleanChars text), t ∈ operator_tokens → 3 ≤ t.length →
      t ∈ tokenize (preprocess_text self text)) :=
  ⟨output_tokens_from_kept self text hlem,
   fun t ht hop hlen => operator_token_survives self base text hSW hlem hOps t ht hop hlen⟩

/-- Witness for the amended C4 at a concrete state and input. -/
theorem c4_witness :
    (∀ tok ∈ tokenize (preprocess_text demoSelfW (String.toList "there was not a dont problem")),
      ∃ w ∈ tokenize (removeGreetings (cleanChars (String.toList "there was not a dont problem"))),
        w ∉ demoSelfW.stop_words ∧ tok = removeShortRuns (demoSelfW.lemmatize w)) ∧
    (∀ t ∈ tokenize (cleanChars (String.toList "there was not a dont problem")),
      t ∈ operator_tokens → 3 ≤ t.length →
      t ∈ tokenize (preprocess_text demoSelfW (String.toList "there was not a dont problem"))) :=
  c4_amended_stopwords_and_operators demoSelfW [] (String.toList "there was not a dont problem")
    rfl
    (by
      intro t c hc
      have hc' : c ∈ guardLemmatize t := hc
      unfold guardLemmatize at hc'
      split at hc'
      · next hall =>
        have := List.all_eq_true.mp hall c hc'
        simpa using this
      · simp at hc')
    (by decide)

/-- C5: when the candidate range is non-empty, the selector returns a
candidate whose silhouette score is maximal, and among equal maximal scores it
returns the smallest `k` (first occurrence of the maximum while scanning the
ascending candidate list, which is exactly what `np.argmax` yields). -/
theorem c5_selector_max_first {M : Type} (ops : ExternalOps M) (X : M) (ub k : Nat)
    (h : find_optimal_clusters ops X ub = Except.ok k) :
    k ∈ candidateKs (min ub (ops.nRows X / 8)) ∧
    (∀ j ∈ candidateKs (min ub (ops.nRows X / 8)), selScore ops X j ≤ selScore ops X k) ∧
    (∀ j ∈ candidateKs (min ub (ops.nRows X / 8)),
      selScore ops X j = selScore ops X k → k ≤ j) := by
  rw [find_optimal_clusters_eq] at h
  by_cases hnil : candidateKs (min ub (ops.nRows X / 8)) = []
  · rw [if_pos hnil] at h
    exact absurd h (by simp)
  · rw [if_neg hnil] at h
    simp only [Except.ok.injEq] at h
    subst h
    obtain ⟨hmem, hmax⟩ := selectFrom_mem_max _ _ hnil
    have h2 : 2 ≤ min ub (ops.nRows X / 8) := by
      rcases Nat.lt_or_ge (min ub (ops.nRows X / 8)) 2 with hh | hh
      · exact absurd ((candidateKs_eq_nil_iff _).mpr hh) hnil
      · exact hh
    exact ⟨hmem, hmax, selectFrom_candidate_ties _ _ h2⟩

/-- Witness for C5: with 24 rows the candidates are `[2, 3]`, the scores tie
at 0, and the selector returns the smaller candidate `2`. -/
theorem c5_witness :
    2 ∈ candidateKs (min 10 (demoOps.nRows 24 / 8)) ∧
    (∀ j ∈ candidateKs (min 10 (demoOps.nRows 24 / 8)),
      selScore demoOps 24 j ≤ selScore demoOps 24 2) ∧
    (∀ j ∈ candidateKs (min 10 (demoOps.nRows 24 / 8)),
      selScore demoOps 24 j = selScore demoOps 24 2 → 2 ≤ j) :=
  c5_selector_max_first demoOps 24 10 2 rfl

/-- C6 counterexample: the claim as stated is false.  With 24 rows the
candidate list is `[2, 3]`; when the silhouette scores tie, running the
selection mechanism `K[np.argmax(scores)]` on the permuted candidate list
`[3, 2]` returns 3, while the code's ascending list returns 2 — so the choice
of `k` does depend on the evaluation order when scores tie. -/
theorem c6_counterexample :
    ([3, 2] : List Nat).Perm (candidateKs (min 10 (demoOps.nRows 24 / 8))) ∧
    find_optimal_clusters demoOps 24 10 =
      Except.ok (selectFrom (candidateKs (min 10 (demoOps.nRows 24 / 8)))
        (selScore demoOps 24)) ∧
    selectFrom [3, 2] (selScore demoOps 24) ≠
      selectFrom (candidateKs (min 10 (demoOps.nRows 24 / 8))) (selScore demoOps 24) :=
  ⟨by decide, rfl, by decide⟩

/-- C6 amended: the choice of `k` is invariant under permuting the candidate
list provided no two candidates have equal score (with ties, the scan order
decides, as the counterexample shows); and the selector's result is the
selection rule applied to the ascending candidate list. -/
theorem c6_amended_perm_invariance {M : Type} (ops : ExternalOps M) (X : M) (ub : Nat)
    (K' : List Nat)
    (hperm : K'.Perm (candidateKs (min ub (ops.nRows X / 8))))
    (hinj : ∀ a ∈ candidateKs (min ub (ops.nRows X / 8)),
      ∀ b ∈ candidateKs (min ub (ops.nRows X / 8)),
        selScore ops X a = selScore ops X b → a = b) :
    selectFrom K' (selScore ops X) =
      selectFrom (candidateKs (min ub (ops.nRows X / 8))) (selScore ops X) ∧
    (2 ≤ min ub (ops.nRows X / 8) →
      find_optimal_clusters ops X ub =
        Except.ok (selectFrom (candidateKs (min ub (ops.nRows X / 8)))
          (selScore ops X))) := by
  refine ⟨selectFrom_perm_of_inj _ _ _ hperm hinj, fun h2 => ?_⟩
  rw [find_optimal_clusters_eq,
    if_neg (fun hn => by rw [candidateKs_eq_nil_iff] at hn; omega)]

/-- Witness for the amended C6: with injective scores, the permuted list
`[3, 2]` selects the same count as the ascending list `[2, 3]`. -/
theorem c6_witness :
    selectFrom [3, 2] (selScore demoOpsInj 24) =
      selectFrom (candidateKs (min 10 (demoOpsInj.nRows 24 / 8))) (selScore demoOpsInj 24) ∧
    (2 ≤ min 10 (demoOpsInj.nRows 24 / 8) →
      find_optimal_clusters demoOpsInj 24 10 =
        Except.ok (selectFrom (candidateKs (min 10 (demoOpsInj.nRows 24 / 8)))
          (selScore demoOpsInj 24))) :=
  c6_amended_perm_invariance demoOpsInj 24 10 [3, 2] (by decide) (by decide)

/-- C7 counterexample: the claim as stated is false.  The written file does
not contain exactly the identifier, free-text and label columns: the frame
written at line 192 still carries the `Description_clean` column added at
line 161, and on a concrete successful run that column holds data distinct
from both the identifier and the raw text. -/
theorem c7_counterexample :
    written_columns ≠ ["Inquiry_id", "Question", "Label"] ∧
    ∃ rows, cluster_tickets demoSelf demoOps demoDf16 = Except.ok rows ∧
      ∃ r ∈ rows, r.description_clean ≠ [] ∧ r.description_clean ≠ r.question := by
  refine ⟨by decide, _, rfl, ?_⟩
  decide

/-- C7 amended: the written file has the four columns `Inquiry_id`,
`Question`, `Description_clean`, `Label`; whenever the pipeline succeeds, its
rows are sorted by label, there is one row per original record, and each row
carries an original record's identifier and text together with its normalized
text and an integer label. -/
theorem c7_amended_output_shape {M : Type} (self : TicketClustering) (ops : ExternalOps M)
    (df : List Record) (rows : List OutRow)
    (h : cluster_tickets self ops df = Except.ok rows) :
    written_columns = ["Inquiry_id", "Question", "Description_clean", "Label"] ∧
    List.Sorted (fun a b : OutRow => a.label ≤ b.label) rows ∧
    rows.length = df.length ∧
    ∀ row ∈ rows, row.description_clean = preprocess_text self row.question ∧
      ∃ r ∈ df, row.inquiry_id = r.inquiry_id ∧ row.question = r.question := by
  obtain ⟨X, k, hk, hlen, hrows⟩ := cluster_tickets_ok_inv self ops df rows h
  haveI htot : IsTotal OutRow (fun a b => a.label ≤ b.label) := ⟨fun a b => le_total _ _⟩
  haveI htr : IsTrans OutRow (fun a b => a.label ≤ b.label) :=
    ⟨fun _ _ _ hab hbc => le_trans hab hbc⟩
  have hperm := List.perm_insertionSort (fun a b : OutRow => a.label ≤ b.label)
    (((cleanedRows self df).zip (ops.kmeansFit X (finalKMeansParams k))).map toOutRow)
  refine ⟨rfl, ?_, ?_, ?_⟩
  · rw [hrows]
    exact List.sorted_insertionSort _ _
  · rw [hrows, sortByLabel, hperm.length_eq, List.length_map, List.length_zip,
      hlen, cleanedRows, List.length_map, min_self]
  · intro row hrow
    rw [hrows] at hrow
    have hrow2 : row ∈ ((cleanedRows self df).zip
        (ops.kmeansFit X (finalKMeansParams k))).map toOutRow := hperm.subset hrow
    obtain ⟨p, hp, rfl⟩ := List.mem_map.mp hrow2
    have hcl : p.1 ∈ cleanedRows self df := (List.of_mem_zip hp).1
    rw [cleanedRows] at hcl
    obtain ⟨r, hr, hr2⟩ := List.mem_map.mp hcl
    constructor
    · rw [toOutRow, ← hr2]
    · exact ⟨r, hr, by rw [toOutRow, ← hr2], by rw [toOutRow, ← hr2]⟩

/-- Witness for the amended C7 on a concrete successful run. -/
theorem c7_witness :
    ∃ rows, cluster_tickets demoSelf demoOps demoDf16 = Except.ok rows ∧
      (written_columns = ["Inquiry_id", "Question", "Description_clean", "Label"] ∧
        List.Sorted (fun a b : OutRow => a.label ≤ b.label) rows ∧
        rows.length = demoDf16.length ∧
        ∀ row ∈ rows, row.description_clean = preprocess_text demoSelf row.question ∧
          ∃ r ∈ demoDf16, row.inquiry_id = r.inquiry_id ∧ row.question = r.question) :=
  ⟨_, rfl, c7_amended_output_shape demoSelf demoOps demoDf16 _ rfl⟩

/-- C8: if every input record normalizes to the empty string, the feature
builder receives zero documents and its empty-input error is the result of
the whole run — the pipeline never reaches the clustering stage, for every
choice of clusterer and scorer. -/
theorem c8_all_empty_input_errors {M : Type} (self : TicketClustering) (ops : ExternalOps M)
    (df : List Record) (e : String)
    (hall : ∀ r ∈ df, preprocess_text self r.question = [])
    (hempty : ops.fitTransform [] = Except.error e) :
    cluster_tickets self ops df = Except.error e := by
  unfold cluster_tickets
  rw [cleanData_eq_nil self df hall, List.map_nil, hempty]
  rfl

/-- Witness for C8: three records that are a stop word, a short operator and
a greeting, all of which normalize to the empty string. -/
theorem c8_witness :
    (∀ r ∈ demoDfAllStop, preprocess_text demoSelf r.question = []) ∧
    cluster_tickets demoSelf demoOps demoDfAllStop =
      Except.error "empty vocabulary; perhaps the documents only contain stop words" :=
  ⟨by decide, c8_all_empty_input_errors demoSelf demoOps demoDfAllStop _ (by decide) rfl⟩

/-- C9: the normalizer is a pure function of the input text, the stop-word
set and the lemmatizer; two `TicketClustering` states that agree on those but
differ in every other field (file paths, stemmer) normalize every text
identically — there is no hidden mutable state. -/
theorem c9_preprocess_pure (s1 s2 : TicketClustering)
    (hsw : s1.stop_words = s2.stop_words) (hlm : s1.lemmatize = s2.lemmatize)
    (text : List Char) :
    preprocess_text s1 text = preprocess_text s2 text := by
  unfold preprocess_text
  rw [hsw, hlm]

/-- Witness for C9: two states differing in file paths and stemmer. -/
theorem c9_witness :
    preprocess_text demoSelfA (String.toList "Hello not WORKING 42!") =
      preprocess_text demoSelfB (String.toList "Hello not WORKING 42!") :=
  c9_preprocess_pure demoSelfA demoSelfB rfl rfl _

/-- C10: the final clustering run (lines 175-181) is configured identically
to the selection-phase run (lines 134-140) — same init, max_iter, n_init and
random_state — so for every feature matrix the final assignment equals the
assignment the selector's internal run produced for the chosen `k`, which is
always one of the evaluated candidates. -/
theorem c10_final_config_matches_selector {M : Type} (ops : ExternalOps M) (X : M)
    (ub k : Nat) (h : find_optimal_clusters ops X ub = Except.ok k) :
    k ∈ candidateKs (min ub (ops.nRows X / 8)) ∧
    finalKMeansParams k = selectorKMeansParams k ∧
    ops.kmeansFit X (finalKMeansParams k) = ops.kmeansFit X (selectorKMeansParams k) := by
  rw [find_optimal_clusters_eq] at h
  by_cases hnil : candidateKs (min ub (ops.nRows X / 8)) = []
  · rw [if_pos hnil] at h
    exact absurd h (by simp)
  · rw [if_neg hnil] at h
    simp only [Except.ok.injEq] at h
    subst h
    exact ⟨(selectFrom_mem_max _ _ hnil).1, rfl, rfl⟩

/-- Witness for C10 on a concrete run that selects `k = 2`. -/
theorem c10_witness :
    2 ∈ candidateKs (min 10 (demoOps.nRows 24 / 8)) ∧
    finalKMeansParams 2 = selectorKMeansParams 2 ∧
    demoOps.kmeansFit 24 (finalKMeansParams 2) = demoOps.kmeansFit 24 (selectorKMeansParams 2) :=
  c10_final_config_matches_selector demoOps 24 10 2 rfl
